import Mathlib

/-!
Verification development for the logseq-mcp graph service (`src/graph.ts`).

The TypeScript `GraphService` is shallowly embedded here:
* node `path` string functions (`resolve`, `join`, `basename`, …) are modelled
  over `List Char` / `String`;
* the filesystem is an explicit association list from absolute path strings to
  entries (regular file with content and hard-link count, directory, symlink);
* every service operation is a pure Lean function from a configuration and a
  filesystem state, returning an `Except`-style result, the updated state and a
  trace of the filesystem-touching events it performed (used to verify the
  "safety checks precede reads/writes" properties).
-/

set_option maxRecDepth 10000

namespace LogseqMCP

/-! ## Path strings: `node:path` model

`path.resolve` canonicalizes a path: it prepends the working directory when the
path is not absolute, then splits on `/`, drops empty and `.` components, and
lets `..` pop the previous component (popping at the root is a no-op).
-/

/-- Split a character list on a separator (JS `String.split`); always returns
at least one group. -/
def splitCh (sep : Char) : List Char → List (List Char)
  | [] => [[]]
  | c :: cs =>
    match splitCh sep cs with
    | [] => [[]]
    | g :: gs => if c = sep then [] :: g :: gs else (c :: g) :: gs

/-- A path component that survives normalization: not empty, not `.`, not `..`. -/
def goodComp (c : List Char) : Prop := c ≠ [] ∧ c ≠ ['.'] ∧ c ≠ ['.', '.']

instance (c : List Char) : Decidable (goodComp c) := by
  unfold goodComp; infer_instance

/-- Stack-based normalization of path components (stack is in reverse order):
empty and `.` components are dropped, `..` pops the stack (no-op at the root),
anything else is pushed. -/
def normStack (acc : List (List Char)) : List (List Char) → List (List Char)
  | [] => acc
  | c :: rest =>
    if c = [] ∨ c = ['.'] then normStack acc rest
    else if c = ['.', '.'] then normStack acc.tail rest
    else normStack (c :: acc) rest

/-- Normalized components of a split path, in order. -/
def normComps (l : List (List Char)) : List (List Char) :=
  (normStack [] l).reverse

/-- Join path components with `'/'` separators. -/
def interComps : List (List Char) → List Char
  | [] => []
  | [g] => g
  | g :: gs => g ++ '/' :: interComps gs

/-- Render absolute-path components back to a character list: `/a/b/c`. -/
def renderComps (gs : List (List Char)) : List Char :=
  '/' :: interComps gs

/-- `path.resolve(p)` with working directory `cwd`, over character lists. -/
def resolveL (cwd p : List Char) : List Char :=
  let abs := if p.head? = some '/' then p else cwd ++ '/' :: p
  renderComps (normComps (splitCh '/' abs))

/-- `path.resolve(p)` with working directory `cwd`. -/
def nodeResolve (cwd p : String) : String :=
  ⟨resolveL cwd.data p.data⟩

/-- `path.join(a, b)` for the call sites of the service: plain concatenation
with a separator (all later consumers re-resolve or use simple components). -/
def jsJoin (a b : String) : String := a ++ "/" ++ b

/-- JS `a.startsWith(b)`. -/
def jsStartsWith (s pre : String) : Bool := pre.data.isPrefixOf s.data

/-- Error taxonomy of the service (messages thrown by `graph.ts`). -/
inductive GErr
  | invalidName      -- "Invalid page name: …"
  | invalidDate      -- "Invalid date format: use YYYY-MM-DD"
  | invalidProperty  -- "Invalid property key/value: …"
  | pathEscape       -- "Access denied: path outside graph directory"
  | linkAttack       -- "Access denied: symbolic links not allowed"
  | notRegularFile   -- "Access denied: not a regular file"
  | hardlink         -- "Access denied: hardlinks not allowed"
  | contentTooLarge  -- "Content too large: …"
  | queryTooLong     -- "Search query too long (max 1000 characters)"
  | alreadyExists    -- "Page already exists: …"
  | notFound         -- "Page not found: …"
  | eexist | enoent | eisdir  -- raw fs error codes
  deriving DecidableEq, Repr

/-- Service configuration: the graph root plus the process working directory
used by `path.resolve`. `pagesPath`/`journalsPath` are derived as in the
constructor. -/
structure Cfg where
  graphPath : String
  cwd : String
  deriving DecidableEq, Repr

def Cfg.pagesPath (cfg : Cfg) : String := jsJoin cfg.graphPath "pages"
def Cfg.journalsPath (cfg : Cfg) : String := jsJoin cfg.graphPath "journals"

/-- `validatePath`: resolves the candidate and the graph root and fails with
`PathEscape` unless the resolved candidate equals the root or extends it past a
`/` boundary (`graph.ts:568`). -/
def validatePath (cfg : Cfg) (filePath : String) : Except GErr String :=
  let normalizedPath := nodeResolve cfg.cwd filePath
  let normalizedGraphPath := nodeResolve cfg.cwd cfg.graphPath
  if ¬ jsStartsWith normalizedPath (normalizedGraphPath ++ "/")
      ∧ normalizedPath ≠ normalizedGraphPath then
    .error .pathEscape
  else
    .ok normalizedPath

/-! ### Lemmas about path normalization -/

theorem splitCh_ne_nil (sep : Char) (l : List Char) : splitCh sep l ≠ [] := by
  induction l with
  | nil => simp [splitCh]
  | cons c cs ih =>
    unfold splitCh
    match h : splitCh sep cs with
    | [] => simp
    | g :: gs => by_cases hc : c = sep <;> simp [hc]

theorem splitCh_cons_sep (sep : Char) (b : List Char) :
    splitCh sep (sep :: b) = [] :: splitCh sep b := by
  cases h : splitCh sep b with
  | nil => exact absurd h (splitCh_ne_nil sep b)
  | cons g gs => simp [splitCh, h]

theorem splitCh_cons_ne (sep : Char) (c : Char) (b : List Char) (hc : c ≠ sep) :
    splitCh sep (c :: b) = (c :: (splitCh sep b).headI) :: (splitCh sep b).tail := by
  cases h : splitCh sep b with
  | nil => exact absurd h (splitCh_ne_nil sep b)
  | cons g gs => simp [splitCh, h, hc]

theorem splitCh_append (sep : Char) (a b : List Char) :
    splitCh sep (a ++ sep :: b) = splitCh sep a ++ splitCh sep b := by
  induction a with
  | nil =>
    show splitCh sep (sep :: b) = splitCh sep [] ++ splitCh sep b
    rw [splitCh_cons_sep]; rfl
  | cons c cs ih =>
    obtain ⟨g, gs, h⟩ : ∃ g gs, splitCh sep cs = g :: gs := by
      match h : splitCh sep cs with
      | [] => exact absurd h (splitCh_ne_nil sep cs)
      | g :: gs => exact ⟨g, gs, rfl⟩
    by_cases hc : c = sep
    · subst hc
      show splitCh c (c :: (cs ++ c :: b)) = _
      rw [splitCh_cons_sep, splitCh_cons_sep, ih]
      simp
    · show splitCh sep (c :: (cs ++ sep :: b)) = _
      rw [splitCh_cons_ne sep c _ hc, splitCh_cons_ne sep c _ hc, ih, h]
      simp

theorem splitCh_no_sep (sep : Char) (a : List Char) (h : sep ∉ a) :
    splitCh sep a = [a] := by
  induction a with
  | nil => simp [splitCh]
  | cons c cs ih =>
    have hc : c ≠ sep := fun hh => h (hh ▸ List.mem_cons_self c cs)
    have hcs : sep ∉ cs := fun hh => h (List.mem_cons_of_mem c hh)
    rw [splitCh_cons_ne sep c cs hc, ih hcs]
    simp

/-- Components on the normalization stack are always good. -/
theorem normStack_good (l : List (List Char)) (acc : List (List Char))
    (hacc : ∀ c ∈ acc, goodComp c) : ∀ c ∈ normStack acc l, goodComp c := by
  induction l generalizing acc with
  | nil => simpa [normStack] using hacc
  | cons x rest ih =>
    intro c hc
    unfold normStack at hc
    split at hc
    · exact ih acc hacc c hc
    · split at hc
      · refine ih acc.tail (fun d hd => hacc d ?_) c hc
        exact List.mem_of_mem_tail hd
      · rename_i h1 h2
        refine ih (x :: acc) (fun d hd => ?_) c hc
        rcases List.mem_cons.mp hd with h | h
        · subst h
          push_neg at h1
          exact ⟨h1.1, h1.2, h2⟩
        · exact hacc d h

theorem normComps_good (l : List (List Char)) :
    ∀ c ∈ normComps l, goodComp c := by
  intro c hc
  exact normStack_good l [] (by simp) c (List.mem_reverse.mp hc)

/-- Pushing a list of already-good components through the stack just stacks
them. -/
theorem normStack_all_good (l : List (List Char)) (acc : List (List Char))
    (h : ∀ c ∈ l, goodComp c) : normStack acc l = l.reverse ++ acc := by
  induction l generalizing acc with
  | nil => simp [normStack]
  | cons x rest ih =>
    have hx : goodComp x := h x (List.mem_cons_self x rest)
    have hrest : ∀ c ∈ rest, goodComp c := fun c hc => h c (List.mem_cons_of_mem x hc)
    unfold normStack
    rw [if_neg, if_neg]
    · rw [ih (x :: acc) hrest]; simp
    · exact hx.2.2
    · push_neg; exact ⟨hx.1, hx.2.1⟩

theorem normStack_cons (acc : List (List Char)) (c : List Char) (l : List (List Char)) :
    normStack acc (c :: l) =
      if c = [] ∨ c = ['.'] then normStack acc l
      else if c = ['.', '.'] then normStack acc.tail l
      else normStack (c :: acc) l := rfl

theorem normStack_append (a b : List (List Char)) (acc : List (List Char)) :
    normStack acc (a ++ b) = normStack (normStack acc a) b := by
  induction a generalizing acc with
  | nil => simp [normStack]
  | cons x rest ih =>
    show normStack acc (x :: (rest ++ b)) = _
    rw [normStack_cons, normStack_cons]
    split
    · exact ih acc
    · split
      · exact ih acc.tail
      · exact ih (x :: acc)

theorem mem_normStack (l : List (List Char)) (acc : List (List Char)) :
    ∀ c ∈ normStack acc l, c ∈ acc ∨ c ∈ l := by
  induction l generalizing acc with
  | nil => intro c hc; exact Or.inl (by simpa [normStack] using hc)
  | cons x rest ih =>
    intro c hc
    rw [normStack_cons] at hc
    split at hc
    · rcases ih acc c hc with h | h
      · exact Or.inl h
      · exact Or.inr (List.mem_cons_of_mem x h)
    · split at hc
      · rcases ih acc.tail c hc with h | h
        · exact Or.inl (List.mem_of_mem_tail h)
        · exact Or.inr (List.mem_cons_of_mem x h)
      · rcases ih (x :: acc) c hc with h | h
        · rcases List.mem_cons.mp h with h' | h'
          · exact Or.inr (h' ▸ List.mem_cons_self x rest)
          · exact Or.inl h'
        · exact Or.inr (List.mem_cons_of_mem x h)

theorem splitCh_no_sep_mem (sep : Char) (l : List Char) :
    ∀ g ∈ splitCh sep l, sep ∉ g := by
  induction l with
  | nil => intro g hg; simp [splitCh] at hg; simp [hg]
  | cons c cs ih =>
    intro g hg
    obtain ⟨g0, gs0, h0⟩ : ∃ g0 gs0, splitCh sep cs = g0 :: gs0 := by
      match h : splitCh sep cs with
      | [] => exact absurd h (splitCh_ne_nil sep cs)
      | g0 :: gs0 => exact ⟨g0, gs0, rfl⟩
    by_cases hc : c = sep
    · subst hc
      rw [splitCh_cons_sep] at hg
      rcases List.mem_cons.mp hg with h | h
      · simp [h]
      · exact ih g h
    · rw [splitCh_cons_ne sep c cs hc, h0] at hg
      rcases List.mem_cons.mp hg with h | h
      · subst h
        intro hmem
        rcases List.mem_cons.mp hmem with h' | h'
        · exact hc h'.symm
        · exact ih g0 (h0 ▸ List.mem_cons_self g0 gs0) (by simpa using h')
      · exact ih g (h0 ▸ List.mem_cons_of_mem g0 h)

/-- Every component of a resolved path is good (no `..`, `.`, empty) and
slash-free. -/
theorem normComps_splitCh_good (l : List Char) :
    ∀ c ∈ normComps (splitCh '/' l), goodComp c ∧ '/' ∉ c := by
  intro c hc
  refine ⟨normComps_good _ c hc, ?_⟩
  rcases mem_normStack (splitCh '/' l) [] c (List.mem_reverse.mp hc) with h | h
  · simp at h
  · exact splitCh_no_sep_mem '/' l c h

theorem interComps_append (cs : List (List Char)) (n : List Char) (hne : cs ≠ []) :
    interComps (cs ++ [n]) = interComps cs ++ '/' :: n := by
  induction cs with
  | nil => exact absurd rfl hne
  | cons x rest ih =>
    cases rest with
    | nil => simp [interComps]
    | cons y r =>
      show interComps (x :: ((y :: r) ++ [n])) = _
      have h1 : interComps (x :: ((y :: r) ++ [n]))
          = x ++ '/' :: interComps ((y :: r) ++ [n]) := by
        simp [interComps]
      have h2 : interComps (x :: y :: r) = x ++ '/' :: interComps (y :: r) := by
        simp [interComps]
      rw [h1, h2, ih (by simp)]
      simp

theorem splitCh_interComps (cs : List (List Char)) (hcs : ∀ g ∈ cs, '/' ∉ g)
    (hne : cs ≠ []) : splitCh '/' (interComps cs) = cs := by
  induction cs with
  | nil => exact absurd rfl hne
  | cons x rest ih =>
    cases rest with
    | nil => exact splitCh_no_sep '/' x (hcs x (by simp))
    | cons y r =>
      have h1 : interComps (x :: y :: r) = x ++ '/' :: interComps (y :: r) := by
        simp [interComps]
      rw [h1, splitCh_append, splitCh_no_sep '/' x (hcs x (by simp)),
        ih (fun g hg => hcs g (List.mem_cons_of_mem x hg)) (by simp)]
      simp

/-- A canonical path: one already in resolved form. -/
def canonicalStr (g : String) : Prop := nodeResolve "/" g = g

/-- Unfolding of `resolveL` on an absolute path. -/
theorem resolveL_of_abs (cwd p : List Char) (h : p.head? = some '/') :
    resolveL cwd p = renderComps (normComps (splitCh '/' p)) := by
  unfold resolveL
  rw [h]
  simp

/-- Resolving an absolute path ignores the working directory. -/
theorem resolveL_abs (cwd cwd' p : List Char) (h : p.head? = some '/') :
    resolveL cwd p = resolveL cwd' p := by
  rw [resolveL_of_abs cwd p h, resolveL_of_abs cwd' p h]

theorem canonical_rep (g : String) (h : canonicalStr g) :
    ∃ cs, (∀ c ∈ cs, goodComp c ∧ '/' ∉ c) ∧ g.data = renderComps cs := by
  have h' : resolveL "/".data g.data = g.data := congrArg String.data h
  unfold resolveL at h'
  exact ⟨_, normComps_splitCh_good _, h'.symm⟩

theorem canonical_head (g : String) (h : canonicalStr g) : g.data.head? = some '/' := by
  obtain ⟨cs, _, hg⟩ := canonical_rep g h
  rw [hg]; rfl

theorem canonical_resolve (g : String) (h : canonicalStr g) (cwd : String) :
    nodeResolve cwd g = g := by
  have := resolveL_abs cwd.data "/".data g.data (canonical_head g h)
  unfold nodeResolve
  rw [this]
  exact h

/-- Resolving `canonicalDir ++ "/" ++ simpleName` is the identity, and stays
canonical. -/
theorem resolve_append_comp (cs : List (List Char)) (hcs : ∀ c ∈ cs, goodComp c ∧ '/' ∉ c)
    (hne : cs ≠ []) (n : List Char) (hn : goodComp n) (hslash : '/' ∉ n) (cwd : List Char) :
    resolveL cwd (renderComps cs ++ '/' :: n) = renderComps (cs ++ [n]) := by
  have habs : (renderComps cs ++ '/' :: n).head? = some '/' := by
    simp [renderComps]
  rw [resolveL_of_abs cwd _ habs]
  have hsplit : splitCh '/' (renderComps cs ++ '/' :: n)
      = [] :: (cs ++ [n]) := by
    show splitCh '/' ('/' :: (interComps cs ++ '/' :: n)) = _
    rw [splitCh_cons_sep, splitCh_append,
      splitCh_interComps cs (fun g hg => (hcs g hg).2) hne,
      splitCh_no_sep '/' n hslash]
  rw [hsplit]
  unfold normComps
  rw [show ([] :: (cs ++ [n])) = ([([] : List Char)] ++ (cs ++ [n])) from rfl,
    normStack_append]
  have h0 : normStack [] [([] : List Char)] = [] := by simp [normStack]
  rw [h0, normStack_all_good (cs ++ [n]) []
    (by
      intro c hc
      rcases List.mem_append.mp hc with h | h
      · exact (hcs c h).1
      · simpa using (by simpa using h : c = n) ▸ hn)]
  simp

theorem renderComps_ne_root (cs : List (List Char)) (hne : cs ≠ [])
    (hcs : ∀ c ∈ cs, goodComp c) : renderComps cs ≠ ['/'] := by
  cases cs with
  | nil => exact absurd rfl hne
  | cons x rest =>
    cases rest with
    | nil =>
      have hx : goodComp x := hcs x (by simp)
      simp only [renderComps, interComps]
      intro h
      exact hx.1 (by simpa using h)
    | cons y r =>
      have hx : goodComp x := hcs x (by simp)
      have h1 : interComps (x :: y :: r) = x ++ '/' :: interComps (y :: r) := by
        simp [interComps]
      simp only [renderComps, h1]
      intro h
      have := congrArg List.length h
      simp at this

/-- String-level corollary: joining a simple component onto a canonical
directory (other than `/`) resolves to itself and stays canonical. -/
theorem resolve_jsJoin (g n : String) (hg : canonicalStr g) (hroot : g ≠ "/")
    (hn : goodComp n.data) (hslash : '/' ∉ n.data) :
    (∀ cwd, nodeResolve cwd (jsJoin g n) = jsJoin g n) ∧ canonicalStr (jsJoin g n) := by
  obtain ⟨cs, hcs, hgdata⟩ := canonical_rep g hg
  have hcsne : cs ≠ [] := by
    intro h
    apply hroot
    apply String.ext
    rw [hgdata, h]
    rfl
  have hdata : (jsJoin g n).data = renderComps cs ++ '/' :: n.data := by
    show (g ++ "/" ++ n).data = _
    rw [String.data_append, String.data_append, hgdata]
    simp
  have hmain : ∀ cwd : String, nodeResolve cwd (jsJoin g n) = jsJoin g n := by
    intro cwd
    apply String.ext
    show resolveL cwd.data (jsJoin g n).data = (jsJoin g n).data
    rw [hdata, resolve_append_comp cs hcs hcsne n.data hn hslash cwd.data,
      renderComps, interComps_append cs n.data hcsne]
    rfl
  exact ⟨hmain, hmain "/"⟩

theorem canonical_jsJoin_ne_root (g n : String) (hg : canonicalStr g) (hroot : g ≠ "/")
    (hn : goodComp n.data) (hslash : '/' ∉ n.data) : jsJoin g n ≠ "/" := by
  obtain ⟨cs, hcs, hgdata⟩ := canonical_rep g hg
  have hcsne : cs ≠ [] := by
    intro h
    apply hroot
    apply String.ext
    rw [hgdata, h]
    rfl
  have hdata : (jsJoin g n).data = renderComps (cs ++ [n.data]) := by
    have hr : renderComps (cs ++ [n.data]) = '/' :: (interComps cs ++ '/' :: n.data) := by
      rw [renderComps, interComps_append cs n.data hcsne]
    show (g ++ "/" ++ n).data = _
    rw [String.data_append, String.data_append, hgdata, hr, renderComps]
    simp
  intro h
  have : (jsJoin g n).data = ['/'] := by rw [h]
  rw [hdata] at this
  refine renderComps_ne_root (cs ++ [n.data]) (by simp) ?_ this
  intro c hc
  rcases List.mem_append.mp hc with h' | h'
  · exact (hcs c h').1
  · simpa using (by simpa using h' : c = n.data) ▸ hn

theorem isPrefixOf_append_self (a b : List Char) : a.isPrefixOf (a ++ b) = true := by
  induction a with
  | nil => simp [List.isPrefixOf]
  | cons c cs ih => simp [List.isPrefixOf, ih]

/-- For a canonical root ≠ `/`, a path built as `root/sub/name` (both simple
components) passes `validatePath` unchanged. -/
theorem validatePath_ok_join (cfg : Cfg) (hg : canonicalStr cfg.graphPath)
    (hroot : cfg.graphPath ≠ "/") (sub n : String)
    (hsub : goodComp sub.data) (hsub' : '/' ∉ sub.data)
    (hn : goodComp n.data) (hn' : '/' ∉ n.data) :
    validatePath cfg (jsJoin (jsJoin cfg.graphPath sub) n)
      = .ok (jsJoin (jsJoin cfg.graphPath sub) n) := by
  set g := cfg.graphPath with hgdef
  have hg2 : canonicalStr (jsJoin g sub) := (resolve_jsJoin g sub hg hroot hsub hsub').2
  have hg2root : jsJoin g sub ≠ "/" := canonical_jsJoin_ne_root g sub hg hroot hsub hsub'
  have hnp : nodeResolve cfg.cwd (jsJoin (jsJoin g sub) n) = jsJoin (jsJoin g sub) n :=
    (resolve_jsJoin (jsJoin g sub) n hg2 hg2root hn hn').1 cfg.cwd
  have hng : nodeResolve cfg.cwd g = g := canonical_resolve g hg cfg.cwd
  have hpre : jsStartsWith (jsJoin (jsJoin g sub) n) (g ++ "/") = true := by
    unfold jsStartsWith
    have : (jsJoin (jsJoin g sub) n).data
        = (g ++ "/").data ++ (sub.data ++ '/' :: n.data) := by
      show ((g ++ "/" ++ sub) ++ "/" ++ n).data = _
      simp [String.data_append]
    rw [this]
    exact isPrefixOf_append_self _ _
  unfold validatePath
  rw [hnp, hng]
  rw [if_neg]
  intro hcontra
  rw [hpre] at hcontra
  simp at hcontra

/-! ## Filesystem model

An association list from absolute path strings to entries.  `lstat` is a
lookup; a symlink entry also records whether its target exists (so that
`stat`, which follows links, can be modelled). -/

inductive Entry
  | file (content : String) (nlink : Nat)
  | dir
  | symlink (targetExists : Bool)
  deriving DecidableEq, Repr

abbrev FS := List (String × Entry)

deriving instance DecidableEq for Except

/-- `fs.lstat(p)`: the entry at `p`, if any (does not follow symlinks). -/
def lstatE : FS → String → Option Entry
  | [], _ => none
  | (k, e) :: rest, p => if k = p then some e else lstatE rest p

/-- `fs.stat(p)` succeeds when an entry exists (following a symlink to an
existing target). -/
def statOk (fs : FS) (p : String) : Bool :=
  match lstatE fs p with
  | some (.symlink te) => te
  | some _ => true
  | none => false

/-- `checkSymlink` (`graph.ts:529`): fails with `LinkAttack` when an entry
exists at the path and is a symbolic link; a missing entry is fine (the
lstat `ENOENT` is swallowed by the catch). -/
def checkSymlink (fs : FS) (p : String) : Except GErr Unit :=
  match lstatE fs p with
  | some (.symlink _) => .error .linkAttack
  | _ => .ok ()

/-- `checkRegularFile` (`graph.ts:545`): lstat must succeed (else `ENOENT`
propagates), the entry must not be a symlink, must be a regular file, and must
have a single hard link. -/
def checkRegularFile (fs : FS) (p : String) : Except GErr Unit :=
  match lstatE fs p with
  | none => .error .enoent
  | some (.symlink _) => .error .linkAttack
  | some .dir => .error .notRegularFile
  | some (.file _ nlink) => if nlink > 1 then .error .hardlink else .ok ()

/-- **C1**: path resolution never silently yields a location outside the graph
root.  Every path accepted by `validatePath` is the canonicalized input (all
`..`/`.`/empty components eliminated) and is either equal to the resolved
graph root or a strict descendant of it (extends it past a `/` boundary);
a symlinked target is rejected by `checkSymlink` with the LinkAttack error
("Access denied: symbolic links not allowed"), so traversal attempts such as
`../../etc/passwd` and absolute paths outside the root fail with PathEscape
rather than resolving. -/
theorem C1_path_resolution_safety (cfg : Cfg) (p out : String)
    (fs : FS) (q : String) (te : Bool)
    (hok : validatePath cfg p = .ok out)
    (hsym : lstatE fs q = some (.symlink te)) :
    (jsStartsWith out (nodeResolve cfg.cwd cfg.graphPath ++ "/") = true
        ∨ out = nodeResolve cfg.cwd cfg.graphPath)
    ∧ out = nodeResolve cfg.cwd p
    ∧ (∃ cs, (∀ c ∈ cs, goodComp c ∧ '/' ∉ c) ∧ out.data = renderComps cs)
    ∧ checkSymlink fs q = .error .linkAttack := by
  have hmain : out = nodeResolve cfg.cwd p
      ∧ (jsStartsWith out (nodeResolve cfg.cwd cfg.graphPath ++ "/") = true
          ∨ out = nodeResolve cfg.cwd cfg.graphPath) := by
    simp only [validatePath] at hok
    split at hok
    · exact absurd hok (by simp)
    · rename_i hcond
      have h1 : nodeResolve cfg.cwd p = out := by
        injection hok
      refine ⟨h1.symm, ?_⟩
      rw [← h1]
      rcases not_and_or.mp hcond with h | h
      · exact Or.inl (Bool.of_not_eq_false (by simpa using h))
      · exact Or.inr (not_not.mp h)
  refine ⟨hmain.2, hmain.1, ?_, ?_⟩
  · rw [hmain.1]
    exact ⟨normComps (splitCh '/' (if p.data.head? = some '/' then p.data
        else cfg.cwd.data ++ '/' :: p.data)),
      normComps_splitCh_good _, rfl⟩
  · unfold checkSymlink
    rw [hsym]

/-! ## Document parser (`extractTags`, `extractLinks`, `parseProperties`) -/

/-- JS whitespace (`\s`, `String.trim`): space, tab, line terminators, and the
Unicode space separators. -/
def isJsWs (c : Char) : Bool :=
  c == ' ' || c == '\t' || c == '\n' || c == '\r'
    || c.val == 0x0b || c.val == 0x0c || c.val == 0xa0 || c.val == 0x1680
    || decide (0x2000 ≤ c.val ∧ c.val ≤ 0x200a)
    || c.val == 0x2028 || c.val == 0x2029 || c.val == 0x202f || c.val == 0x205f
    || c.val == 0x3000 || c.val == 0xfeff

/-- JS line terminators (the characters `.` does not match). -/
def isLineTerm (c : Char) : Bool :=
  c == '\n' || c == '\r' || c.val == 0x2028 || c.val == 0x2029

def jsTrimEndL (l : List Char) : List Char :=
  (l.reverse.dropWhile isJsWs).reverse

/-- JS `String.trimEnd()`. -/
def jsTrimEnd (s : String) : String := ⟨jsTrimEndL s.data⟩

/-- JS `String.trim()`. -/
def jsTrim (s : String) : String := ⟨jsTrimEndL (s.data.dropWhile isJsWs)⟩

/-- Contiguous-sublist check over character lists. -/
def isInfixL (sub : List Char) : List Char → Bool
  | [] => sub.isEmpty
  | c :: rest => sub.isPrefixOf (c :: rest) || isInfixL sub rest

/-- JS `a.includes(b)` (substring containment). -/
def jsIncludes (s sub : String) : Bool := isInfixL sub.data s.data

/-- JS `String.split(sep)` for a single-character separator. -/
def jsSplit (sep : Char) (s : String) : List String :=
  (splitCh sep s.data).map fun g => ⟨g⟩

/-- Hangul syllables `가-힣`. -/
def isHangulSyl (c : Char) : Bool := decide (0xAC00 ≤ c.val ∧ c.val ≤ 0xD7A3)

/-- Hangul jamo `ㄱ-ㅎ` and `ㅏ-ㅣ`. -/
def isHangulJamo (c : Char) : Bool :=
  decide (0x3131 ≤ c.val ∧ c.val ≤ 0x314E) || decide (0x314F ≤ c.val ∧ c.val ≤ 0x3163)

/-- Character class of the tag regex: ASCII alphanumerics, underscore,
hyphen, slash, and Hangul syllables. -/
def isTagChar (c : Char) : Bool :=
  c.isAlpha || c.isDigit || c == '_' || c == '-' || c == '/' || isHangulSyl c

/-- Scanner for the global tag regex: at `#`, capture a maximal nonempty run
of tag characters and resume after it; otherwise advance one character.  The
fuel argument bounds the number of scan steps (the input length suffices). -/
def tagScanAux : Nat → List Char → List String
  | 0, _ => []
  | _ + 1, [] => []
  | n + 1, '#' :: rest =>
    let run := rest.takeWhile isTagChar
    if run = [] then tagScanAux n rest
    else (⟨run⟩ : String) :: tagScanAux n (rest.drop run.length)
  | n + 1, _ :: rest => tagScanAux n rest

/-- JS `Set` insertion: append if not already present (keeps first-seen
order). -/
def addUnique (xs : List String) (x : String) : List String :=
  if x ∈ xs then xs else xs ++ [x]

/-- `extractTags` (`graph.ts:619`). -/
def extractTags (content : String) : List String :=
  (tagScanAux content.data.length content.data).foldl addUnique []

/-- Characters allowed in the `[[...]]` capture group (`[^\]|]+`). -/
def isLinkCapChar (c : Char) : Bool := c != ']' && c != '|'

/-- Scanner for the global link regex `\\[\\[([^\\]|]+)(?:\\|[^\\]]+)?\\]\\]`: at
`[[`, greedily capture up to `]` or `|`; an optional `|display` part must be
nonempty and be followed by `]]`; on a failed attempt the scan resumes one
character later, on success it resumes after the match.  The fuel argument
bounds the number of scan steps (the input length suffices). -/
def linkScanAux : Nat → List Char → List String
  | 0, _ => []
  | _ + 1, [] => []
  | n + 1, c1 :: rest1 =>
    match rest1 with
    | [] => []
    | c2 :: rest2 =>
      if c1 = '[' ∧ c2 = '[' then
        let cap := rest2.takeWhile isLinkCapChar
        if cap = [] then linkScanAux n (c2 :: rest2)
        else
          match rest2.drop cap.length with
          | ']' :: ']' :: rest3 => (⟨cap⟩ : String) :: linkScanAux n rest3
          | '|' :: krest =>
            let disp := krest.takeWhile (· != ']')
            if disp = [] then linkScanAux n (c2 :: rest2)
            else
              match krest.drop disp.length with
              | ']' :: ']' :: rest3 => (⟨cap⟩ : String) :: linkScanAux n rest3
              | _ => linkScanAux n (c2 :: rest2)
          | _ => linkScanAux n (c2 :: rest2)
      else linkScanAux n (c2 :: rest2)

/-- `extractLinks` (`graph.ts:629`). -/
def extractLinks (content : String) : List String :=
  (linkScanAux content.data.length content.data).foldl addUnique []

/-- Key characters of the property-line regex `^([a-zA-Z_-]+)::\s*(.*)$`
(note: letters, underscore and hyphen only — no digits). -/
def isPropKeyChar (c : Char) : Bool := c.isAlpha || c == '_' || c == '-'

/-- Match one line against `^([a-zA-Z_-]+)::\s*(.*)$`: a nonempty run of key
characters, the `::` delimiter, optional whitespace, then a value that `.`
can match entirely (no line terminators; a stray `\r` makes the line fail to
match). -/
def parsePropLine (line : String) : Option (String × String) :=
  let l := line.data
  let key := l.takeWhile isPropKeyChar
  let rest := l.drop key.length
  if key = [] then none
  else
    match rest with
    | ':' :: ':' :: rest2 =>
      let v := rest2.dropWhile isJsWs
      if v.any isLineTerm then none else some (⟨key⟩, ⟨v⟩)
    | _ => none

/-- JS object insertion: an existing key keeps its position and is updated,
a new key is appended. -/
def upsertProp : List (String × String) → String → String → List (String × String)
  | [], k, v => [(k, v)]
  | (k', v') :: rest, k, v =>
    if k' = k then (k, v) :: rest else (k', v') :: upsertProp rest k v

/-- The scanning loop of `parseProperties` (`graph.ts:645`): `i` is the
current line index, the second `Nat` is `bodyStart` (updated to `i + 1` only
when a property line matches), blank lines are skipped, and the first other
line breaks the loop. -/
def propScan : List String → Nat → Nat → List (String × String) →
    List (String × String) × Nat
  | [], _, bs, props => (props, bs)
  | line :: rest, i, bs, props =>
    match parsePropLine line with
    | some (k, v) => propScan rest (i + 1) (i + 1) (upsertProp props k v)
    | none =>
      if jsTrim line = "" then propScan rest (i + 1) bs props
      else (props, bs)

/-- `parseProperties` (`graph.ts:639`): scan the lines, collect the property
lines, and join the lines from `bodyStart` onward as the body. -/
def parseProperties (content : String) : List (String × String) × String :=
  ((propScan (jsSplit '\n' content) 0 0 []).1,
    String.intercalate "\n"
      ((jsSplit '\n' content).drop (propScan (jsSplit '\n' content) 0 0 []).2))

/-! ### C6: the property-block scanner -/

/-- Does a line match the property-line pattern? -/
def isPropLineB (l : String) : Bool := (parsePropLine l).isSome

/-- A line the scanner passes over: a property line or a blank line. -/
def propishB (l : String) : Bool := isPropLineB l || decide (jsTrim l = "")

/-- Length of the maximal suffix of non-property lines. -/
def trailingNonProp : List String → Nat
  | [] => 0
  | l :: rest =>
    if trailingNonProp rest = rest.length ∧ ¬ isPropLineB l then rest.length + 1
    else trailingNonProp rest

theorem trailingNonProp_le (ls : List String) : trailingNonProp ls ≤ ls.length := by
  induction ls with
  | nil => simp [trailingNonProp]
  | cons l rest ih =>
    unfold trailingNonProp
    split
    · simp
    · exact le_trans ih (by simp)

/-- The scanning loop, characterized declaratively: it consumes the maximal
prefix of property-or-blank lines, folds the parsed property lines into the
accumulator, and sets `bodyStart` to the index just past the last property
line of that prefix (i.e. prefix length minus the trailing run of blank
lines), or leaves it unchanged when the prefix has no property line. -/
theorem trailingNonProp_cons (l : String) (rest : List String) :
    trailingNonProp (l :: rest) =
      if trailingNonProp rest = rest.length ∧ ¬ isPropLineB l
      then rest.length + 1 else trailingNonProp rest := rfl

theorem propScan_eq (lines : List String) (i bs0 : Nat)
    (props0 : List (String × String)) :
    propScan lines i bs0 props0 =
      (((lines.takeWhile propishB).filterMap parsePropLine).foldl
          (fun m kv => upsertProp m kv.1 kv.2) props0,
        if trailingNonProp (lines.takeWhile propishB)
            = (lines.takeWhile propishB).length then bs0
        else i + ((lines.takeWhile propishB).length
          - trailingNonProp (lines.takeWhile propishB))) := by
  induction lines generalizing i bs0 props0 with
  | nil => simp [propScan, trailingNonProp]
  | cons line rest ih =>
    match hp : parsePropLine line with
    | some (k, v) =>
      have hprop : isPropLineB line = true := by simp [isPropLineB, hp]
      have hpre : (line :: rest).takeWhile propishB
          = line :: rest.takeWhile propishB := by
        simp [List.takeWhile, propishB, hprop]
      have hle := trailingNonProp_le (rest.takeWhile propishB)
      rw [show propScan (line :: rest) i bs0 props0
          = propScan rest (i + 1) (i + 1) (upsertProp props0 k v) by
        simp [propScan, hp]]
      rw [ih, hpre, Prod.mk.injEq]
      refine ⟨by simp [hp], ?_⟩
      simp [trailingNonProp_cons, hprop]
      split_ifs <;> omega
    | none =>
      by_cases hb : jsTrim line = ""
      · have hprop : isPropLineB line = false := by simp [isPropLineB, hp]
        have hpre : (line :: rest).takeWhile propishB
            = line :: rest.takeWhile propishB := by
          simp [List.takeWhile, propishB, hprop, hb]
        have hle := trailingNonProp_le (rest.takeWhile propishB)
        rw [show propScan (line :: rest) i bs0 props0
            = propScan rest (i + 1) bs0 props0 by
          simp [propScan, hp, hb]]
        rw [ih, hpre, Prod.mk.injEq]
        refine ⟨by simp [hp], ?_⟩
        simp [trailingNonProp_cons, hprop]
        split_ifs <;> omega
      · have hpre : (line :: rest).takeWhile propishB = [] := by
          simp [List.takeWhile, propishB, isPropLineB, hp, hb]
        rw [show propScan (line :: rest) i bs0 props0 = (props0, bs0) by
          simp [propScan, hp, hb]]
        rw [hpre]
        simp [trailingNonProp]

/-- **C6 counterexample**: the claim fails on the code in two ways.  A key
containing a digit (`a1`) is *not* accepted (the key class of the regex is
`[a-zA-Z_-]+`, digits excluded), so `a1:: v` terminates the block instead of
becoming a property; and a blank line between the last property line and the
terminating line is *retained in the body* (bodyStart is the index after the
last matched property line), so the body does not start at the terminating
line. -/
theorem C6_counterexample :
    parseProperties "a1:: v\nbody" = ([], "a1:: v\nbody")
    ∧ parseProperties "k:: v\n\nbody" = ([("k", "v")], "\nbody")
    ∧ parseProperties "a1:: v\nbody" ≠ ([("a1", "v")], "body")
    ∧ parseProperties "k:: v\n\nbody" ≠ ([("k", "v")], "body") := by
  refine ⟨by decide, by decide, by decide, by decide⟩

/-- **C6 (amended)**: `parseProperties` scans the maximal leading prefix of
lines that are property lines (`key:: value`, key restricted to ASCII
letters, hyphen and underscore — digits are not accepted) or blank lines
(blank lines are skipped and do not terminate the block); the first
non-matching, non-blank line terminates the block.  The properties are the
parsed property lines of that prefix folded with JS-object update semantics,
and the body consists of all lines from the index just past the *last
matched property line* onward (in particular blank lines between the last
property line and the terminating line are retained in the body), the
scanned property lines themselves being excluded.  Property keys always
consist solely of letters, hyphens and underscores. -/
theorem C6_splitProperties_amended (content : String) :
    (parseProperties content =
      ((((jsSplit '\n' content).takeWhile propishB).filterMap parsePropLine).foldl
          (fun m kv => upsertProp m kv.1 kv.2) [],
        String.intercalate "\n" ((jsSplit '\n' content).drop
          (((jsSplit '\n' content).takeWhile propishB).length
            - trailingNonProp ((jsSplit '\n' content).takeWhile propishB)))))
    ∧ ∀ line k v, parsePropLine line = some (k, v) →
        k.data ≠ [] ∧ ∀ c ∈ k.data, isPropKeyChar c = true := by
  constructor
  · have hle := trailingNonProp_le ((jsSplit '\n' content).takeWhile propishB)
    unfold parseProperties
    simp only [propScan_eq]
    rw [Prod.mk.injEq]
    refine ⟨rfl, ?_⟩
    have harg : (if trailingNonProp ((jsSplit '\n' content).takeWhile propishB)
          = ((jsSplit '\n' content).takeWhile propishB).length then 0
        else 0 + (((jsSplit '\n' content).takeWhile propishB).length
          - trailingNonProp ((jsSplit '\n' content).takeWhile propishB)))
        = ((jsSplit '\n' content).takeWhile propishB).length
          - trailingNonProp ((jsSplit '\n' content).takeWhile propishB) := by
      split_ifs <;> omega
    rw [harg]
  · intro line k v hline
    simp only [parsePropLine] at hline
    split at hline
    · exact absurd hline (by simp)
    · rename_i hkey
      split at hline
      · split at hline
        · exact absurd hline (by simp)
        · rename_i v' hv'
          have hk : k = ⟨line.data.takeWhile isPropKeyChar⟩ := by
            injection hline with h1
            injection h1 with h2 _
            exact h2.symm
          subst hk
          refine ⟨by simpa using hkey, ?_⟩
          intro c hc
          exact List.mem_takeWhile_imp (by simpa using hc)
      · exact absurd hline (by simp)

/-! ## Store operations

Each operation is a pure function of the configuration and the filesystem
state.  Mutating operations return the updated state.  Every operation also
returns the ordered trace of filesystem-touching events it performed
(successful safety checks, content reads/writes, directory creation,
unlinking), used to verify the check-before-access properties. -/

inductive Event
  | pathValidated (p : String)
  | symlinkChecked (p : String)
  | regularFileChecked (p : String)
  | readEv (p : String)
  | writeEv (p : String)
  | mkdirEv (p : String)
  | unlinkEv (p : String)
  deriving DecidableEq, Repr

/-- Replace the entry at a path (first occurrence), or add it. -/
def updateEntry : FS → String → Entry → FS
  | [], p, e => [(p, e)]
  | (k, e') :: rest, p, e =>
    if k = p then (p, e) :: rest else (k, e') :: updateEntry rest p e

/-- Remove the entry at a path (first occurrence). -/
def removeEntry : FS → String → FS
  | [], _ => []
  | (k, e) :: rest, p => if k = p then rest else (k, e) :: removeEntry rest p

/-- `readFile(p, 'utf-8')`.  (All modelled flows check for symlinks before
reading, so the symlink branch is unreachable there; it is mapped to
`ENOENT`.) -/
def readFileE (fs : FS) (p : String) : Except GErr String :=
  match lstatE fs p with
  | some (.file c _) => .ok c
  | some .dir => .error .eisdir
  | some (.symlink _) => .error .enoent
  | none => .error .enoent

/-- `writeFile(p, content, 'utf-8')`: overwrite or create.  Overwriting keeps
the hard-link count.  (Symlink branch unreachable in guarded flows.) -/
def writeFileE (fs : FS) (p : String) (content : String) : Except GErr FS :=
  match lstatE fs p with
  | some .dir => .error .eisdir
  | some (.file _ nl) => .ok (updateEntry fs p (.file content nl))
  | some (.symlink _) => .error .enoent
  | none => .ok (updateEntry fs p (.file content 1))

/-- `writeFile(p, content, { flag: 'wx' })`: exclusive creation, `EEXIST` when
any entry already exists at the path. -/
def writeFileWxE (fs : FS) (p : String) (content : String) : Except GErr FS :=
  match lstatE fs p with
  | some _ => .error .eexist
  | none => .ok (updateEntry fs p (.file content 1))

/-- `mkdir(p, { recursive: true })`: fine if the directory exists, `EEXIST`
if a non-directory entry occupies the path. -/
def mkdirRecE (fs : FS) (p : String) : Except GErr FS :=
  match lstatE fs p with
  | some .dir => .ok fs
  | some _ => .error .eexist
  | none => .ok (updateEntry fs p .dir)

/-- `readdir(dir)`: the names (in entry order) of entries directly under
`dir`. -/
def readdirE (fs : FS) (dir : String) : Except GErr (List String) :=
  match lstatE fs dir with
  | some .dir => .ok (fs.filterMap fun pe =>
      let rest := pe.1.data.drop (dir.data.length + 1)
      if (dir.data ++ ['/']).isPrefixOf pe.1.data ∧ '/' ∉ rest ∧ rest ≠ []
      then some (⟨rest⟩ : String) else none)
  | _ => .error .enoent

structure PageMetadata where
  path : String
  name : String
  tags : List String
  links : List String
  backlinks : List String
  isJournal : Bool
  deriving DecidableEq, Repr

structure Page where
  path : String
  name : String
  content : String
  properties : List (String × String)
  tags : List String
  links : List String
  backlinks : List String
  isJournal : Bool
  deriving DecidableEq, Repr

/-- JS `a.endsWith(b)`. -/
def jsEndsWith (s suf : String) : Bool := suf.data.isSuffixOf s.data

/-- `extname(file) === '.md'`: the name ends in `.md` and is not the bare
`.md` (node treats a leading dot as part of the name, not an extension). -/
def isMdFile (file : String) : Bool := jsEndsWith file ".md" && file != ".md"

/-- `basename(file, '.md')`: strip a `.md` suffix unless the name is exactly
`.md`. -/
def stripMd (file : String) : String :=
  if jsEndsWith file ".md" && file != ".md"
  then ⟨file.data.take (file.data.length - 3)⟩ else file

/-- Last `/`-separated component of a path. -/
def basenameOf (p : String) : String := ⟨(splitCh '/' p.data).getLastD []⟩

/-- Replace every dash with an underscore (JS `replace` with a global dash
pattern). -/
def dashToUnderscore (s : String) : String :=
  ⟨s.data.map fun c => if c = '-' then '_' else c⟩

/-- ASCII lowering (JS `toLowerCase`; full Unicode case mapping is not
modelled). -/
def jsToLower (s : String) : String := ⟨s.data.map Char.toLower⟩

/-- `filePath.replace(this.graphPath + '/', '')`: for paths inside the root
the first occurrence is the leading one. -/
def stripRootPrefix (g p : String) : String :=
  if jsStartsWith p (g ++ "/") then ⟨p.data.drop (g.data.length + 1)⟩ else p

/-- The whitelist character class of `validatePageName` (`graph.ts:178`):
ASCII alphanumerics, Hangul syllables and jamo, JS whitespace, and the listed
punctuation. -/
def isSafeNameChar (c : Char) : Bool :=
  c.isAlpha || c.isDigit || isHangulSyl c || isHangulJamo c || isJsWs c
    || c == '_' || c == '-' || c == '(' || c == ')' || c == '.' || c == ','
    || c == '\'' || c == '!' || c == '@' || c == '#' || c == '$' || c == '%'
    || c == '&' || c == '+' || c == '=' || c == '[' || c == ']'
    || c.val == 0x7b || c.val == 0x7d

/-- `validatePageName` (`graph.ts:165`): length cap, non-blank, whitelist,
then the explicit deny-list of dangerous substrings. -/
def validatePageName (name : String) : Except GErr Unit :=
  if name.data.length > 200 then .error .invalidName
  else if (jsTrim name).data.length = 0 then .error .invalidName
  else if ¬ (name.data ≠ [] ∧ name.data.all isSafeNameChar) then .error .invalidName
  else if jsIncludes name ".." || jsIncludes name "/" || jsIncludes name "\\"
      || jsIncludes name "\x00" || jsIncludes name ":" || jsIncludes name "*"
      || jsIncludes name "?" || jsIncludes name "\"" || jsIncludes name "<"
      || jsIncludes name ">" || jsIncludes name "|" then .error .invalidName
  else .ok ()

def MAX_CONTENT_SIZE : Nat := 10 * 1024 * 1024

/-- `validateContentSize` (`graph.ts:519`): UTF-8 byte size capped at 10 MiB. -/
def validateContentSize (content : String) : Except GErr Unit :=
  if content.utf8ByteSize > MAX_CONTENT_SIZE then .error .contentTooLarge else .ok ()

/-- Key shape required by `validateProperties`: a letter followed by
alphanumerics, hyphens, underscores. -/
def validPropKey (k : String) : Bool :=
  match k.data with
  | [] => false
  | c :: rest => c.isAlpha && rest.all fun c => c.isAlpha || c.isDigit || c == '_' || c == '-'

/-- `validateProperties` (`graph.ts:666`). -/
def validateProperties (props : List (String × String)) : Except GErr Unit :=
  if props.all (fun kv =>
      !(kv.1.data.any fun c => c == '\n' || c == '\r') && !(jsIncludes kv.1 "::")
      && !(kv.2.data.any fun c => c == '\n' || c == '\r') && validPropKey kv.1)
  then .ok () else .error .invalidProperty

/-- `buildContent` (`graph.ts:688`): serialize a property block before the
content, after validating the properties. -/
def buildContent (content : String) (props : Option (List (String × String))) :
    Except GErr String :=
  match props with
  | none => .ok content
  | some ps =>
    if ps = [] then .ok content
    else
      match validateProperties ps with
      | .error e => .error e
      | .ok () =>
        .ok (String.intercalate "\n" (ps.map fun kv => kv.1 ++ ":: " ++ kv.2)
          ++ "\n\n" ++ content)

/-! ### Index builder -/

/-- The body of the per-folder loop of `collectAllPages`: skip non-`.md`
entries, skip symlinks and entries whose lstat fails, read and parse the
rest.  A read that throws (e.g. a directory named `x.md`) aborts the rest of
this folder (the exception is caught by the surrounding try). -/
def collectFolder (fs : FS) (dirPath rel : String) (isJ : Bool) :
    List String → List PageMetadata × List Event
  | [] => ([], [])
  | file :: rest =>
    if isMdFile file then
      let filePath := jsJoin dirPath file
      match lstatE fs filePath with
      | some (.symlink _) => collectFolder fs dirPath rel isJ rest
      | none => collectFolder fs dirPath rel isJ rest
      | some .dir => ([], [])
      | some (.file content _) =>
        let pm : PageMetadata :=
          { path := jsJoin rel file, name := stripMd file,
            tags := extractTags content, links := extractLinks content,
            backlinks := [], isJournal := isJ }
        let r := collectFolder fs dirPath rel isJ rest
        (pm :: r.1, Event.readEv filePath :: r.2)
    else collectFolder fs dirPath rel isJ rest

/-- `collectAllPages` (`graph.ts:65`): walk the pages folder then the
journals folder; a missing folder contributes nothing. -/
def collectAllPages (cfg : Cfg) (fs : FS) : List PageMetadata × List Event :=
  let rp :=
    match readdirE fs cfg.pagesPath with
    | .ok files => collectFolder fs cfg.pagesPath "pages" false files
    | .error _ => ([], [])
  let rj :=
    match readdirE fs cfg.journalsPath with
    | .ok files => collectFolder fs cfg.journalsPath "journals" true files
    | .error _ => ([], [])
  (rp.1 ++ rj.1, rp.2 ++ rj.2)

/-- `Map.get(k) ?? []` over an association list. -/
def getD : List (String × List String) → String → List String
  | [], _ => []
  | (k, v) :: rest, key => if k = key then v else getD rest key

/-- Append a value to the list at a key (`existing.push(...)` then `set`). -/
def pushVal : List (String × List String) → String → String →
    List (String × List String)
  | [], k, v => [(k, [v])]
  | (k', vs) :: rest, k, v =>
    if k' = k then (k, vs ++ [v]) :: rest else (k', vs) :: pushVal rest k v

/-- Record `name` as a backlink source for each of its outgoing links. -/
def addLinksOf (m : List (String × List String)) (name : String) :
    List String → List (String × List String)
  | [] => m
  | l :: ls => addLinksOf (pushVal m l name) name ls

/-- The backlinks map of `listPages`: iterate all pages, pushing the page
name under each link target. -/
def buildBacklinks (m : List (String × List String)) :
    List PageMetadata → List (String × List String)
  | [] => m
  | p :: ps => buildBacklinks (addLinksOf m p.name p.links) ps

/-- `listPages` (`graph.ts:28`): rebuild the index, invert the link relation
into backlinks, optionally filter by folder, and attach the backlinks. -/
def listPages (cfg : Cfg) (fs : FS) (folder : Option String) :
    List PageMetadata × List Event :=
  let r := collectAllPages cfg fs
  let bmap := buildBacklinks [] r.1
  let filtered :=
    if folder = some "journals" then r.1.filter (·.isJournal)
    else if folder = some "pages" then r.1.filter (fun p => !p.isJournal)
    else r.1
  (filtered.map (fun p => { p with backlinks := getD bmap p.name }), r.2)

/-! ### Path resolution and reading -/

/-- `resolvePath` (`graph.ts:579`): an input containing `/` is joined to the
root and validated; otherwise the pages candidate, the
dashes-to-underscores journal candidate and the raw journal candidate are
tried in order (a `PathEscape` from validation propagates, a failed stat
moves on); exhaustion yields NotFound. -/
def resolvePathE (cfg : Cfg) (fs : FS) (pathOrName : String) :
    Except GErr String × List Event :=
  if '/' ∈ pathOrName.data then
    match validatePath cfg (jsJoin cfg.graphPath pathOrName) with
    | .error e => (.error e, [])
    | .ok p => (.ok p, [.pathValidated p])
  else
    match validatePath cfg (jsJoin cfg.pagesPath (pathOrName ++ ".md")) with
    | .error e => (.error e, [])
    | .ok p1 =>
      if statOk fs p1 then (.ok p1, [.pathValidated p1])
      else
        match validatePath cfg
            (jsJoin cfg.journalsPath (dashToUnderscore pathOrName ++ ".md")) with
        | .error e => (.error e, [.pathValidated p1])
        | .ok p2 =>
          if statOk fs p2 then (.ok p2, [.pathValidated p1, .pathValidated p2])
          else
            match validatePath cfg (jsJoin cfg.journalsPath (pathOrName ++ ".md")) with
            | .error e => (.error e, [.pathValidated p1, .pathValidated p2])
            | .ok p3 =>
              if statOk fs p3 then
                (.ok p3, [.pathValidated p1, .pathValidated p2, .pathValidated p3])
              else
                (.error .notFound,
                  [.pathValidated p1, .pathValidated p2, .pathValidated p3])

/-- `readPage` (`graph.ts:132`): resolve, check for symlink, read, parse,
and recompute backlinks from a fresh index. -/
def readPage (cfg : Cfg) (fs : FS) (pathOrName : String) :
    Except GErr Page × List Event :=
  match resolvePathE cfg fs pathOrName with
  | (.error e, evs) => (.error e, evs)
  | (.ok filePath, evs) =>
    match checkSymlink fs filePath with
    | .error e => (.error e, evs)
    | .ok () =>
      let evs := evs ++ [.symlinkChecked filePath]
      match readFileE fs filePath with
      | .error e => (.error e, evs)
      | .ok content =>
        let evs := evs ++ [.readEv filePath]
        let name := stripMd (basenameOf filePath)
        let isJournal := jsIncludes filePath "/journals/"
        let pb := parseProperties content
        let r := collectAllPages cfg fs
        let backlinks :=
          (r.1.filter fun p => decide (name ∈ p.links)).map (·.name)
        (.ok { path := stripRootPrefix cfg.graphPath filePath, name,
               content := pb.2, properties := pb.1,
               tags := extractTags content, links := extractLinks content,
               backlinks, isJournal }, evs ++ r.2)

/-! ### Mutating operations -/

/-- `createPage` (`graph.ts:195`): validate the name, the target path and the
content size; ensure the pages directory; check for a symlink; then create
exclusively (`wx`), translating `EEXIST` into AlreadyExists; finally re-read
the page. -/
def createPage (cfg : Cfg) (fs : FS) (name content : String)
    (props : Option (List (String × String))) :
    Except GErr Page × FS × List Event :=
  match validatePageName name with
  | .error e => (.error e, fs, [])
  | .ok () =>
    let filePath := jsJoin cfg.pagesPath (name ++ ".md")
    match validatePath cfg filePath with
    | .error e => (.error e, fs, [])
    | .ok vp =>
      match validateContentSize content with
      | .error e => (.error e, fs, [.pathValidated vp])
      | .ok () =>
        match mkdirRecE fs cfg.pagesPath with
        | .error e => (.error e, fs, [.pathValidated vp])
        | .ok fs1 =>
          let evs := [Event.pathValidated vp, Event.mkdirEv cfg.pagesPath]
          match checkSymlink fs1 filePath with
          | .error e => (.error e, fs1, evs)
          | .ok () =>
            let evs := evs ++ [.symlinkChecked filePath]
            match buildContent content props with
            | .error e => (.error e, fs1, evs)
            | .ok fullContent =>
              match writeFileWxE fs1 filePath fullContent with
              | .error .eexist => (.error .alreadyExists, fs1, evs)
              | .error e => (.error e, fs1, evs)
              | .ok fs2 =>
                let evs := evs ++ [.writeEv filePath]
                let r := readPage cfg fs2 name
                (r.1, fs2, evs ++ r.2)

/-- `updatePage` (`graph.ts:229`): size check, resolve, symlink check,
overwrite, re-read. -/
def updatePage (cfg : Cfg) (fs : FS) (pathOrName content : String)
    (props : Option (List (String × String))) :
    Except GErr Page × FS × List Event :=
  match validateContentSize content with
  | .error e => (.error e, fs, [])
  | .ok () =>
    match resolvePathE cfg fs pathOrName with
    | (.error e, evs) => (.error e, fs, evs)
    | (.ok filePath, evs) =>
      match checkSymlink fs filePath with
      | .error e => (.error e, fs, evs)
      | .ok () =>
        let evs := evs ++ [.symlinkChecked filePath]
        match buildContent content props with
        | .error e => (.error e, fs, evs)
        | .ok fullContent =>
          match writeFileE fs filePath fullContent with
          | .error e => (.error e, fs, evs)
          | .ok fs1 =>
            let evs := evs ++ [.writeEv filePath]
            let r := readPage cfg fs1 pathOrName
            (r.1, fs1, evs ++ r.2)

/-- `deletePage` (`graph.ts:243`): resolve, symlink check, unlink. -/
def deletePage (cfg : Cfg) (fs : FS) (pathOrName : String) :
    Except GErr Unit × FS × List Event :=
  match resolvePathE cfg fs pathOrName with
  | (.error e, evs) => (.error e, fs, evs)
  | (.ok filePath, evs) =>
    match checkSymlink fs filePath with
    | .error e => (.error e, fs, evs)
    | .ok () =>
      let evs := evs ++ [.symlinkChecked filePath]
      match lstatE fs filePath with
      | none => (.error .enoent, fs, evs)
      | some .dir => (.error .eisdir, fs, evs)
      | some _ =>
        (.ok (), removeEntry fs filePath, evs ++ [.unlinkEv filePath])

/-- `appendToPage` (`graph.ts:252`): size-check the addition, resolve, check
for symlink, read the current content, append after trimming trailing
whitespace, size-check the combination, write back, re-read. -/
def appendToPage (cfg : Cfg) (fs : FS) (pathOrName content : String) :
    Except GErr Page × FS × List Event :=
  match validateContentSize content with
  | .error e => (.error e, fs, [])
  | .ok () =>
    match resolvePathE cfg fs pathOrName with
    | (.error e, evs) => (.error e, fs, evs)
    | (.ok filePath, evs) =>
      match checkSymlink fs filePath with
      | .error e => (.error e, fs, evs)
      | .ok () =>
        let evs := evs ++ [.symlinkChecked filePath]
        match readFileE fs filePath with
        | .error e => (.error e, fs, evs)
        | .ok existing =>
          let evs := evs ++ [.readEv filePath]
          let newContent := jsTrimEnd existing ++ "\n" ++ content
          match validateContentSize newContent with
          | .error e => (.error e, fs, evs)
          | .ok () =>
            match writeFileE fs filePath newContent with
            | .error e => (.error e, fs, evs)
            | .ok fs1 =>
              let evs := evs ++ [.writeEv filePath]
              let r := readPage cfg fs1 pathOrName
              (r.1, fs1, evs ++ r.2)

/-! ### Journal operations -/

/-- `^\d{4}-\d{2}-\d{2}$`. -/
def validDateFormat (d : String) : Bool :=
  match d.data with
  | [a, b, c, e, '-', f, g, '-', h, i] =>
    a.isDigit && b.isDigit && c.isDigit && e.isDigit
      && f.isDigit && g.isDigit && h.isDigit && i.isDigit
  | _ => false

/-- `getJournalPage` (`graph.ts:413`): `today` stands for the clock-derived
default date. -/
def getJournalPage (cfg : Cfg) (fs : FS) (today : String) (date : Option String) :
    Except GErr (Option Page) × List Event :=
  let targetDate := date.getD today
  if date.isSome ∧ ¬ validDateFormat targetDate then (.error .invalidDate, [])
  else
    let fileName := dashToUnderscore targetDate ++ ".md"
    let filePath := jsJoin cfg.journalsPath fileName
    match validatePath cfg filePath with
    | .error e => (.error e, [])
    | .ok vp =>
      let evs := [Event.pathValidated vp]
      if statOk fs filePath then
        match readPage cfg fs (jsJoin "journals" fileName) with
        | (.ok pg, evs2) => (.ok (some pg), evs ++ evs2)
        | (.error _, evs2) => (.ok none, evs ++ evs2)
      else (.ok none, evs)

/-- `createJournalPage` (`graph.ts:436`): validate, ensure the journals
directory, check for symlink; an existing file is read and returned intact,
otherwise the template (default `- `) is written and the page re-read.  A
failed read of an existing file falls into the creation branch (its
exception is caught by the surrounding try). -/
def createJournalPage (cfg : Cfg) (fs : FS) (today : String)
    (date : Option String) (template : Option String) :
    Except GErr Page × FS × List Event :=
  let targetDate := date.getD today
  if date.isSome ∧ ¬ validDateFormat targetDate then (.error .invalidDate, fs, [])
  else
    match template with
    | some t =>
      match validateContentSize t with
      | .error e => (.error e, fs, [])
      | .ok () => createJournalPageBody cfg fs targetDate template
    | none => createJournalPageBody cfg fs targetDate template
where
  createJournalPageBody (cfg : Cfg) (fs : FS) (targetDate : String)
      (template : Option String) : Except GErr Page × FS × List Event :=
    let fileName := dashToUnderscore targetDate ++ ".md"
    let filePath := jsJoin cfg.journalsPath fileName
    match validatePath cfg filePath with
    | .error e => (.error e, fs, [])
    | .ok vp =>
      match mkdirRecE fs cfg.journalsPath with
      | .error e => (.error e, fs, [.pathValidated vp])
      | .ok fs1 =>
        let evs := [Event.pathValidated vp, Event.mkdirEv cfg.journalsPath]
        match checkSymlink fs1 filePath with
        | .error e => (.error e, fs1, evs)
        | .ok () =>
          let evs := evs ++ [.symlinkChecked filePath]
          let createBranch : List Event → Except GErr Page × FS × List Event :=
            fun evsAcc =>
              match writeFileE fs1 filePath (template.getD "- ") with
              | .error e => (.error e, fs1, evsAcc)
              | .ok fs2 =>
                let r := readPage cfg fs2 (jsJoin "journals" fileName)
                (r.1, fs2, evsAcc ++ [.writeEv filePath] ++ r.2)
          if statOk fs1 filePath then
            match readPage cfg fs1 (jsJoin "journals" fileName) with
            | (.ok pg, evs2) => (.ok pg, fs1, evs ++ evs2)
            | (.error _, evs2) => createBranch (evs ++ evs2)
          else createBranch evs

/-- `appendToJournalPage` (`graph.ts:474`): like creation, but concatenates
onto the current content; an empty or missing current content is seeded with
the default stub when no content is given. -/
def appendToJournalPage (cfg : Cfg) (fs : FS) (today : String)
    (date content : Option String) :
    Except GErr Page × FS × List Event :=
  let targetDate := date.getD today
  if date.isSome ∧ ¬ validDateFormat targetDate then (.error .invalidDate, fs, [])
  else
    match content with
    | some c =>
      match validateContentSize c with
      | .error e => (.error e, fs, [])
      | .ok () => appendToJournalPageBody cfg fs targetDate content
    | none => appendToJournalPageBody cfg fs targetDate content
where
  appendToJournalPageBody (cfg : Cfg) (fs : FS) (targetDate : String)
      (content : Option String) : Except GErr Page × FS × List Event :=
    let fileName := dashToUnderscore targetDate ++ ".md"
    let filePath := jsJoin cfg.journalsPath fileName
    match validatePath cfg filePath with
    | .error e => (.error e, fs, [])
    | .ok vp =>
      match mkdirRecE fs cfg.journalsPath with
      | .error e => (.error e, fs, [.pathValidated vp])
      | .ok fs1 =>
        let evs := [Event.pathValidated vp, Event.mkdirEv cfg.journalsPath]
        match checkSymlink fs1 filePath with
        | .error e => (.error e, fs1, evs)
        | .ok () =>
          let evs := evs ++ [.symlinkChecked filePath]
          let read :=
            match readFileE fs1 filePath with
            | .ok c => (c, [Event.readEv filePath])
            | .error _ => ("", [])
          let evs := evs ++ read.2
          let cval := content.getD ""
          let newContent :=
            if read.1 ≠ "" then read.1 ++ "\n" ++ cval
            else if cval = "" then "- " else cval
          match writeFileE fs1 filePath newContent with
          | .error e => (.error e, fs1, evs)
          | .ok fs2 =>
            let r := readPage cfg fs2 (jsJoin "journals" fileName)
            (r.1, fs2, evs ++ [.writeEv filePath] ++ r.2)

/-! ### Search -/

structure SearchMatch where
  line : Nat
  content : String
  context : String
  deriving DecidableEq, Repr

/-- The line-matching loop of `searchPages`: 1-based line numbers, the
literal line, and a context of `lines.slice(max(0, i-1), i+2)` joined with
newlines. -/
def searchMatches (lines : List String) (queryLower : String) : List SearchMatch :=
  (List.range lines.length).filterMap fun i =>
    if jsIncludes (jsToLower (lines.getD i "")) queryLower then
      some { line := i + 1, content := lines.getD i "",
             context := String.intercalate "\n" ((lines.take (i + 2)).drop (i - 1)) }
    else none

/-- The per-page loop of `searchPages`: tag filtering, the regular-file
check (a failure skips the page silently), the content read, and inclusion
when the name matches or any line matches. -/
def searchLoop (cfg : Cfg) (fs : FS) (queryLower : String)
    (tags : Option (List String)) :
    List PageMetadata →
    Except GErr (List (PageMetadata × List SearchMatch)) × List Event
  | [] => (.ok [], [])
  | page :: rest =>
    let tagSkip : Bool :=
      match tags with
      | some ts => !ts.isEmpty && !(ts.any fun t => page.tags.contains t)
      | none => false
    if tagSkip then searchLoop cfg fs queryLower tags rest
    else
      let filePath := jsJoin cfg.graphPath page.path
      match checkRegularFile fs filePath with
      | .error _ => searchLoop cfg fs queryLower tags rest
      | .ok () =>
        match readFileE fs filePath with
        | .error e => (.error e, [Event.regularFileChecked filePath])
        | .ok content =>
          let ms := searchMatches (jsSplit '\n' content) queryLower
          let r := searchLoop cfg fs queryLower tags rest
          let evs := Event.regularFileChecked filePath :: Event.readEv filePath :: r.2
          match r.1 with
          | .error e => (.error e, evs)
          | .ok results =>
            if jsIncludes (jsToLower page.name) queryLower ∨ ms ≠ [] then
              (.ok ((page, ms) :: results), evs)
            else (.ok results, evs)

/-- `searchPages` (`graph.ts:271`). -/
def searchPages (cfg : Cfg) (fs : FS) (query : String)
    (tags : Option (List String)) (folder : Option String) :
    Except GErr (List (PageMetadata × List SearchMatch)) × List Event :=
  if query.data.length > 1000 then (.error .queryTooLong, [])
  else
    let r := listPages cfg fs folder
    let s := searchLoop cfg fs (jsToLower query) tags r.1
    (s.1, r.2 ++ s.2)

/-! ### Graph traversal -/

inductive NodeType | page | tag | journal
  deriving DecidableEq, Repr

inductive EdgeType | link | tag | backlink
  deriving DecidableEq, Repr

structure GraphNode where
  id : String
  name : String
  type : NodeType
  deriving DecidableEq, Repr

structure GraphEdge where
  source : String
  target : String
  type : EdgeType
  deriving DecidableEq, Repr

structure GraphAcc where
  nodes : List GraphNode
  edges : List GraphEdge
  deriving DecidableEq, Repr

/-- `addNode` (`graph.ts:339`): the `nodeSet` dedup set is represented by
the ids already present in `nodes`. -/
def addNode (nodes : List GraphNode) (id name : String) (ty : NodeType) :
    List GraphNode :=
  if nodes.any (fun n => n.id == id) then nodes else nodes ++ [⟨id, name, ty⟩]

/-- The link loop of a visit: add a page node for each link target, push a
link edge. -/
def expandLinks (st : GraphAcc) (name : String) : List String → GraphAcc
  | [] => st
  | l :: ls =>
    expandLinks
      ⟨addNode st.nodes l l .page, st.edges ++ [⟨name, l, .link⟩]⟩ name ls

/-- The backlink loop of a visit. -/
def expandBacklinks (st : GraphAcc) (name : String) : List String → GraphAcc
  | [] => st
  | b :: bs =>
    expandBacklinks
      ⟨addNode st.nodes b b .page, st.edges ++ [⟨b, name, .backlink⟩]⟩ name bs

/-- The tag loop of a visit: tag node ids are prefixed with `tag:`. -/
def expandTags (st : GraphAcc) (name : String) : List String → GraphAcc
  | [] => st
  | t :: ts =>
    expandTags
      ⟨addNode st.nodes ("tag:" ++ t) t .tag,
        st.edges ++ [⟨name, "tag:" ++ t, .tag⟩]⟩ name ts

/-- An upper bound on the number of BFS loop iterations: one initial queue
entry plus one enqueued entry per link/backlink of each page (each page is
expanded at most once thanks to the visited set). -/
def bfsFuel (pages : List PageMetadata) : Nat :=
  1 + (pages.map fun p => p.links.length + p.backlinks.length).sum

/-- The centered BFS loop of `getGraph` (`graph.ts:354`): pop, skip visited
or too-deep entries, skip names with no page, otherwise emit the node, its
link/backlink/tag neighborhood, and enqueue link/backlink neighbors at
`depth + 1` while `depth < maxDepth`. -/
def bfsLoop (pages : List PageMetadata) (maxDepth : Nat) :
    Nat → List (String × Nat) → List String → GraphAcc → GraphAcc
  | 0, _, _, st => st
  | _ + 1, [], _, st => st
  | fuel + 1, (name, depth) :: queue, visited, st =>
    if name ∈ visited ∨ depth > maxDepth then
      bfsLoop pages maxDepth fuel queue visited st
    else
      let visited := name :: visited
      match pages.find? (fun p => p.name == name) with
      | none => bfsLoop pages maxDepth fuel queue visited st
      | some page =>
        let nodeType := if page.isJournal then NodeType.journal else NodeType.page
        let st := { st with nodes := addNode st.nodes name name nodeType }
        let st := expandLinks st name page.links
        let st := expandBacklinks st name page.backlinks
        let st := expandTags st name page.tags
        let queue :=
          if depth < maxDepth then
            queue ++ page.links.map (fun l => (l, depth + 1))
              ++ page.backlinks.map (fun b => (b, depth + 1))
          else queue
        bfsLoop pages maxDepth fuel queue visited st

/-- The full-graph mode of `getGraph`: every page becomes a node with its
link edges (targets need not exist) and tag edges; no backlink edges. -/
def fullGraph : List PageMetadata → GraphAcc → GraphAcc
  | [], st => st
  | page :: rest, st =>
    let ty := if page.isJournal then NodeType.journal else NodeType.page
    let st := { st with nodes := addNode st.nodes page.name page.name ty }
    let st := expandLinks st page.name page.links
    let st := expandTags st page.name page.tags
    fullGraph rest st

/-- The graph construction of `getGraph` on an already-built page list:
requested depth defaults to 1 and clamps to `[0, 10]`. -/
def getGraphFrom (pages : List PageMetadata) (center : Option String)
    (depth : Option Int) : GraphAcc :=
  match center with
  | some c =>
    let requestedDepth := depth.getD 1
    let maxDepth := (max 0 (min requestedDepth 10)).toNat
    bfsLoop pages maxDepth (bfsFuel pages) [(c, 0)] [] ⟨[], []⟩
  | none => fullGraph pages ⟨[], []⟩

/-- `getGraph` (`graph.ts:333`). -/
def getGraph (cfg : Cfg) (fs : FS) (center : Option String)
    (depth : Option Int) : GraphAcc × List Event :=
  let r := listPages cfg fs none
  (getGraphFrom r.1 center depth, r.2)

/-! ### C4: centered traversal at depth 0 -/

/-- The neighborhood emitted for a single visited page, following the
amended claim: the page's node, then a node and edge for every outgoing
link, every backlink, and every tag. -/
def depth0Spec (pages : List PageMetadata) (c : String) : GraphAcc :=
  match pages.find? (fun p => p.name == c) with
  | none => ⟨[], []⟩
  | some page =>
    let ty := if page.isJournal then NodeType.journal else NodeType.page
    expandTags
      (expandBacklinks
        (expandLinks ⟨addNode [] c c ty, []⟩ c page.links) c page.backlinks)
      c page.tags

theorem bfsLoop_empty (pages : List PageMetadata) (maxDepth fuel : Nat)
    (visited : List String) (st : GraphAcc) :
    bfsLoop pages maxDepth fuel [] visited st = st := by
  cases fuel <;> rfl

/-- **C4 counterexample**: with a single page `A` whose body links `[[B]]`
and has no tags, `getGraph` centered at `A` with `depth = 0` returns the
link-neighbor node `B` (and the edge `A → B`) in addition to the center —
not "exactly the center node plus its tag nodes and zero link/backlink
neighbor nodes" as claimed (only *expansion* of neighbors is gated on the
depth; their nodes and edges are always emitted). -/
theorem C4_counterexample :
    ((getGraph ⟨"/g", "/cwd"⟩
        [("/g", .dir), ("/g/pages", .dir), ("/g/pages/A.md", .file "[[B]]" 1)]
        (some "A") (some 0)).1.nodes.map (fun n => n.id)) = ["A", "B"]
    ∧ (getGraph ⟨"/g", "/cwd"⟩
        [("/g", .dir), ("/g/pages", .dir), ("/g/pages/A.md", .file "[[B]]" 1)]
        (some "A") (some 0)).1.edges = [⟨"A", "B", .link⟩]
    ∧ ((getGraph ⟨"/g", "/cwd"⟩
        [("/g", .dir), ("/g/pages", .dir), ("/g/pages/A.md", .file "[[B]]" 1)]
        (some "A") (some 0)).1.nodes.map (fun n => n.id)) ≠ ["A"] := by
  refine ⟨by decide, by decide, by decide⟩

/-- **C4 (amended)**: centered traversal with `depth = 0` visits exactly the
center: if a page with the center's name exists, the result is that page's
node together with a node and an edge for each of its immediate links,
backlinks and tags (tag node ids prefixed `tag:`), and nothing is expanded
further; if no such page exists, the graph is empty. -/
theorem C4_depth0_amended (cfg : Cfg) (fs : FS) (c : String) :
    (getGraph cfg fs (some c) (some 0)).1
      = depth0Spec (listPages cfg fs none).1 c := by
  have hgen : ∀ pages : List PageMetadata,
      getGraphFrom pages (some c) (some 0) = depth0Spec pages c := by
    intro pages
    have hfuel : bfsFuel pages
        = (pages.map fun p => p.links.length + p.backlinks.length).sum + 1 := by
      unfold bfsFuel; omega
    have hmd : (max 0 (min ((some (0 : Int)).getD 1) 10)).toNat = 0 := by decide
    show bfsLoop pages ((max 0 (min ((some (0 : Int)).getD 1) 10)).toNat)
        (bfsFuel pages) [(c, 0)] [] ⟨[], []⟩ = depth0Spec pages c
    rw [hmd, hfuel]
    show (if c ∈ ([] : List String) ∨ 0 > 0 then _ else _) = _
    rw [if_neg (by simp)]
    cases hf : pages.find? (fun p => p.name == c) with
    | none => simp only [depth0Spec, hf, bfsLoop_empty]
    | some page =>
      simp only [depth0Spec, hf]
      rw [if_neg (by omega)]
      exact bfsLoop_empty _ _ _ _ _
  show getGraphFrom (listPages cfg fs none).1 (some c) (some 0) = _
  exact hgen _

/-! ### C9: graph well-formedness invariants -/

/-- Some node in the accumulator carries this id. -/
def HasId (st : GraphAcc) (id : String) : Prop := ∃ n ∈ st.nodes, n.id = id

/-- The invariant: node ids are pairwise distinct, every edge endpoint is the
id of a present node, and tag-typed nodes have ids of the shape
`tag:` ++ name. -/
def GoodAcc (st : GraphAcc) : Prop :=
  (st.nodes.map (fun n => n.id)).Nodup
  ∧ (∀ e ∈ st.edges, HasId st e.source ∧ HasId st e.target)
  ∧ (∀ n ∈ st.nodes, n.type = NodeType.tag → n.id = "tag:" ++ n.name)

theorem mem_addNode_of_mem (nodes : List GraphNode) (id name : String)
    (ty : NodeType) (n : GraphNode) (h : n ∈ nodes) :
    n ∈ addNode nodes id name ty := by
  unfold addNode
  split
  · exact h
  · exact List.mem_append_left _ h

theorem hasId_addNode_self (nodes : List GraphNode) (id name : String)
    (ty : NodeType) : ∃ n ∈ addNode nodes id name ty, n.id = id := by
  unfold addNode
  split
  · rename_i hany
    obtain ⟨n, hn, heq⟩ := List.any_eq_true.mp hany
    exact ⟨n, hn, by simpa using heq⟩
  · exact ⟨⟨id, name, ty⟩, by simp⟩

theorem addNode_nodup (nodes : List GraphNode) (id name : String) (ty : NodeType)
    (h : (nodes.map (fun n => n.id)).Nodup) :
    ((addNode nodes id name ty).map (fun n => n.id)).Nodup := by
  unfold addNode
  split
  · exact h
  · rename_i hany
    rw [List.map_append, List.nodup_append]
    refine ⟨h, by simp, ?_⟩
    intro x hx
    simp only [List.map_cons, List.map_nil, List.mem_singleton]
    intro hxid
    subst hxid
    obtain ⟨n, hn, hnid⟩ := List.mem_map.mp hx
    exact absurd (List.any_eq_true.mpr ⟨n, hn, by simp [hnid]⟩) hany

theorem addNode_tagInv (nodes : List GraphNode) (id name : String) (ty : NodeType)
    (h : ∀ n ∈ nodes, n.type = NodeType.tag → n.id = "tag:" ++ n.name)
    (hnew : ty = NodeType.tag → id = "tag:" ++ name) :
    ∀ n ∈ addNode nodes id name ty, n.type = NodeType.tag → n.id = "tag:" ++ n.name := by
  unfold addNode
  split
  · exact h
  · intro n hn
    rcases List.mem_append.mp hn with h' | h'
    · exact h n h'
    · intro hty
      have : n = ⟨id, name, ty⟩ := by simpa using h'
      subst this
      exact hnew (by simpa using hty)

theorem expandLinks_good (name : String) (ls : List String) (st : GraphAcc)
    (hst : GoodAcc st) (hname : HasId st name) :
    GoodAcc (expandLinks st name ls)
    ∧ (∀ id, HasId st id → HasId (expandLinks st name ls) id) := by
  induction ls generalizing st with
  | nil => exact ⟨hst, fun _ h => h⟩
  | cons l ls ih =>
    have hmono : ∀ id, HasId st id →
        HasId ⟨addNode st.nodes l l .page, st.edges ++ [⟨name, l, .link⟩]⟩ id := by
      intro id ⟨n, hn, hid⟩
      exact ⟨n, mem_addNode_of_mem _ _ _ _ _ hn, hid⟩
    have hl : HasId ⟨addNode st.nodes l l .page, st.edges ++ [⟨name, l, .link⟩]⟩ l := by
      obtain ⟨n, hn, hid⟩ := hasId_addNode_self st.nodes l l .page
      exact ⟨n, hn, hid⟩
    have hgood : GoodAcc ⟨addNode st.nodes l l .page, st.edges ++ [⟨name, l, .link⟩]⟩ := by
      refine ⟨addNode_nodup _ _ _ _ hst.1, ?_, ?_⟩
      · intro e he
        rcases List.mem_append.mp he with h' | h'
        · obtain ⟨h1, h2⟩ := hst.2.1 e h'
          exact ⟨hmono _ h1, hmono _ h2⟩
        · have : e = ⟨name, l, .link⟩ := by simpa using h'
          subst this
          exact ⟨hmono _ hname, hl⟩
      · exact addNode_tagInv _ _ _ _ hst.2.2 (by simp)
    obtain ⟨hg, hm⟩ := ih _ hgood (hmono _ hname)
    exact ⟨hg, fun id h => hm id (hmono id h)⟩

theorem expandBacklinks_good (name : String) (bs : List String) (st : GraphAcc)
    (hst : GoodAcc st) (hname : HasId st name) :
    GoodAcc (expandBacklinks st name bs)
    ∧ (∀ id, HasId st id → HasId (expandBacklinks st name bs) id) := by
  induction bs generalizing st with
  | nil => exact ⟨hst, fun _ h => h⟩
  | cons b bs ih =>
    have hmono : ∀ id, HasId st id →
        HasId ⟨addNode st.nodes b b .page, st.edges ++ [⟨b, name, .backlink⟩]⟩ id := by
      intro id ⟨n, hn, hid⟩
      exact ⟨n, mem_addNode_of_mem _ _ _ _ _ hn, hid⟩
    have hb : HasId ⟨addNode st.nodes b b .page, st.edges ++ [⟨b, name, .backlink⟩]⟩ b := by
      obtain ⟨n, hn, hid⟩ := hasId_addNode_self st.nodes b b .page
      exact ⟨n, hn, hid⟩
    have hgood : GoodAcc ⟨addNode st.nodes b b .page, st.edges ++ [⟨b, name, .backlink⟩]⟩ := by
      refine ⟨addNode_nodup _ _ _ _ hst.1, ?_, ?_⟩
      · intro e he
        rcases List.mem_append.mp he with h' | h'
        · obtain ⟨h1, h2⟩ := hst.2.1 e h'
          exact ⟨hmono _ h1, hmono _ h2⟩
        · have : e = ⟨b, name, .backlink⟩ := by simpa using h'
          subst this
          exact ⟨hb, hmono _ hname⟩
      · exact addNode_tagInv _ _ _ _ hst.2.2 (by simp)
    obtain ⟨hg, hm⟩ := ih _ hgood (hmono _ hname)
    exact ⟨hg, fun id h => hm id (hmono id h)⟩

theorem expandTags_good (name : String) (ts : List String) (st : GraphAcc)
    (hst : GoodAcc st) (hname : HasId st name) :
    GoodAcc (expandTags st name ts)
    ∧ (∀ id, HasId st id → HasId (expandTags st name ts) id) := by
  induction ts generalizing st with
  | nil => exact ⟨hst, fun _ h => h⟩
  | cons t ts ih =>
    have hmono : ∀ id, HasId st id →
        HasId ⟨addNode st.nodes ("tag:" ++ t) t .tag,
          st.edges ++ [⟨name, "tag:" ++ t, .tag⟩]⟩ id := by
      intro id ⟨n, hn, hid⟩
      exact ⟨n, mem_addNode_of_mem _ _ _ _ _ hn, hid⟩
    have ht : HasId ⟨addNode st.nodes ("tag:" ++ t) t .tag,
        st.edges ++ [⟨name, "tag:" ++ t, .tag⟩]⟩ ("tag:" ++ t) := by
      obtain ⟨n, hn, hid⟩ := hasId_addNode_self st.nodes ("tag:" ++ t) t .tag
      exact ⟨n, hn, hid⟩
    have hgood : GoodAcc ⟨addNode st.nodes ("tag:" ++ t) t .tag,
        st.edges ++ [⟨name, "tag:" ++ t, .tag⟩]⟩ := by
      refine ⟨addNode_nodup _ _ _ _ hst.1, ?_, ?_⟩
      · intro e he
        rcases List.mem_append.mp he with h' | h'
        · obtain ⟨h1, h2⟩ := hst.2.1 e h'
          exact ⟨hmono _ h1, hmono _ h2⟩
        · have : e = ⟨name, "tag:" ++ t, .tag⟩ := by simpa using h'
          subst this
          exact ⟨hmono _ hname, ht⟩
      · exact addNode_tagInv _ _ _ _ hst.2.2 (by simp)
    obtain ⟨hg, hm⟩ := ih _ hgood (hmono _ hname)
    exact ⟨hg, fun id h => hm id (hmono id h)⟩

theorem bfsLoop_good (pages : List PageMetadata) (maxDepth : Nat) :
    ∀ (fuel : Nat) (queue : List (String × Nat)) (visited : List String)
      (st : GraphAcc), GoodAcc st →
      GoodAcc (bfsLoop pages maxDepth fuel queue visited st) := by
  intro fuel
  induction fuel with
  | zero => intro _ _ st h; exact h
  | succ n ih =>
    intro queue visited st h
    match queue with
    | [] => exact h
    | (name, depth) :: queue =>
      show GoodAcc (if name ∈ visited ∨ depth > maxDepth then _ else _)
      split
      · exact ih _ _ _ h
      · cases hf : pages.find? (fun p => p.name == name) with
        | none => simp only [hf]; exact ih _ _ _ h
        | some page =>
          simp only [hf]
          have h1 : GoodAcc ⟨addNode st.nodes name name
              (if page.isJournal then NodeType.journal else NodeType.page),
              st.edges⟩ := by
            refine ⟨addNode_nodup _ _ _ _ h.1, ?_, ?_⟩
            · intro e he
              obtain ⟨he1, he2⟩ := h.2.1 e he
              constructor
              · obtain ⟨m, hm, hid⟩ := he1
                exact ⟨m, mem_addNode_of_mem _ _ _ _ _ hm, hid⟩
              · obtain ⟨m, hm, hid⟩ := he2
                exact ⟨m, mem_addNode_of_mem _ _ _ _ _ hm, hid⟩
            · exact addNode_tagInv _ _ _ _ h.2.2 (by split <;> simp)
          have hname : HasId ⟨addNode st.nodes name name
              (if page.isJournal then NodeType.journal else NodeType.page),
              st.edges⟩ name := by
            obtain ⟨m, hm, hid⟩ := hasId_addNode_self st.nodes name name _
            exact ⟨m, hm, hid⟩
          obtain ⟨h2, hm2⟩ := expandLinks_good name page.links _ h1 hname
          obtain ⟨h3, hm3⟩ := expandBacklinks_good name page.backlinks _ h2
            (hm2 _ hname)
          obtain ⟨h4, _⟩ := expandTags_good name page.tags _ h3
            (hm3 _ (hm2 _ hname))
          exact ih _ _ _ h4

theorem fullGraph_good (pages : List PageMetadata) (st : GraphAcc)
    (h : GoodAcc st) : GoodAcc (fullGraph pages st) := by
  induction pages generalizing st with
  | nil => exact h
  | cons page rest ih =>
    have h1 : GoodAcc ⟨addNode st.nodes page.name page.name
        (if page.isJournal then NodeType.journal else NodeType.page), st.edges⟩ := by
      refine ⟨addNode_nodup _ _ _ _ h.1, ?_, ?_⟩
      · intro e he
        obtain ⟨he1, he2⟩ := h.2.1 e he
        constructor
        · obtain ⟨m, hm, hid⟩ := he1
          exact ⟨m, mem_addNode_of_mem _ _ _ _ _ hm, hid⟩
        · obtain ⟨m, hm, hid⟩ := he2
          exact ⟨m, mem_addNode_of_mem _ _ _ _ _ hm, hid⟩
      · exact addNode_tagInv _ _ _ _ h.2.2 (by split <;> simp)
    have hname : HasId ⟨addNode st.nodes page.name page.name
        (if page.isJournal then NodeType.journal else NodeType.page), st.edges⟩
        page.name := by
      obtain ⟨m, hm, hid⟩ := hasId_addNode_self st.nodes page.name page.name _
      exact ⟨m, hm, hid⟩
    obtain ⟨h2, hm2⟩ := expandLinks_good page.name page.links _ h1 hname
    obtain ⟨h3, _⟩ := expandTags_good page.name page.tags _ h2 (hm2 _ hname)
    exact ih _ h3

/-- **C9**: every graph value returned by `getGraph`, in both full-graph and
centered mode, has pairwise-distinct node ids (tag nodes carry ids of the
form `tag:` ++ tag name, keeping them distinct from page nodes of the same
name), and every edge's source and target equal the id of some node present
in the returned node list. -/
theorem C9_graph_invariants (cfg : Cfg) (fs : FS) (center : Option String)
    (depth : Option Int) :
    (((getGraph cfg fs center depth).1.nodes.map (fun n => n.id)).Nodup)
    ∧ (∀ e ∈ (getGraph cfg fs center depth).1.edges,
        (∃ n ∈ (getGraph cfg fs center depth).1.nodes, n.id = e.source)
        ∧ (∃ n ∈ (getGraph cfg fs center depth).1.nodes, n.id = e.target))
    ∧ (∀ n ∈ (getGraph cfg fs center depth).1.nodes,
        n.type = NodeType.tag → n.id = "tag:" ++ n.name) := by
  have hempty : GoodAcc ⟨[], []⟩ := ⟨by simp, by simp, by simp⟩
  have h : GoodAcc (getGraph cfg fs center depth).1 := by
    show GoodAcc (getGraphFrom (listPages cfg fs none).1 center depth)
    unfold getGraphFrom
    match center with
    | some c => exact bfsLoop_good _ _ _ _ _ _ hempty
    | none => exact fullGraph_good _ _ hempty
  exact ⟨h.1, h.2.1, h.2.2⟩

/-! ### C10: failed validation leaves the store untouched -/

/-- An event that touches the filesystem state or file contents. -/
def isFsTouching : Event → Bool
  | .readEv _ | .writeEv _ | .mkdirEv _ | .unlinkEv _ => true
  | _ => false

/-- **C10**: when `createPage` fails its identifier validation (InvalidName),
its target-path validation (PathEscape) or its content-size check
(ContentTooLarge), it throws before any filesystem operation: the result is
an error, the returned store is exactly the input store, and the trace
contains no read, write, mkdir or unlink event. -/
theorem C10_createPage_early_failure (cfg : Cfg) (fs : FS)
    (name content : String) (props : Option (List (String × String)))
    (h : validatePageName name = .error .invalidName
      ∨ validatePath cfg (jsJoin cfg.pagesPath (name ++ ".md")) = .error .pathEscape
      ∨ MAX_CONTENT_SIZE < content.utf8ByteSize) :
    (∃ e, (createPage cfg fs name content props).1 = .error e)
    ∧ (createPage cfg fs name content props).2.1 = fs
    ∧ ∀ ev ∈ (createPage cfg fs name content props).2.2, isFsTouching ev = false := by
  match hn : validatePageName name with
  | .error e =>
    refine ⟨⟨e, ?_⟩, ?_, ?_⟩ <;> simp [createPage, hn]
  | .ok () =>
    match hv : validatePath cfg (jsJoin cfg.pagesPath (name ++ ".md")) with
    | .error e =>
      refine ⟨⟨e, ?_⟩, ?_, ?_⟩ <;> simp [createPage, hn, hv]
    | .ok vp =>
      have hsz : MAX_CONTENT_SIZE < content.utf8ByteSize := by
        rcases h with h | h | h
        · rw [hn] at h; exact absurd h (by simp)
        · rw [hv] at h; exact absurd h (by simp)
        · exact h
      have hszE : validateContentSize content = .error .contentTooLarge := by
        unfold validateContentSize
        rw [if_pos (by omega)]
      refine ⟨⟨.contentTooLarge, ?_⟩, ?_, ?_⟩ <;>
        simp [createPage, hn, hv, hszE, isFsTouching]

/-- Witness for C10: creating a page named `..` (forbidden by the deny-list)
under root `/g`. -/
theorem C10_createPage_early_failure_witness :
    (validatePageName "evil/name" = .error .invalidName
      ∨ validatePath ⟨"/g", "/cwd"⟩
          (jsJoin (Cfg.pagesPath ⟨"/g", "/cwd"⟩) ("evil/name" ++ ".md"))
          = .error .pathEscape
      ∨ MAX_CONTENT_SIZE < ("x" : String).utf8ByteSize)
    ∧ ((∃ e, (createPage ⟨"/g", "/cwd"⟩ [] "evil/name" "x" none).1 = .error e)
      ∧ (createPage ⟨"/g", "/cwd"⟩ [] "evil/name" "x" none).2.1 = []
      ∧ ∀ ev ∈ (createPage ⟨"/g", "/cwd"⟩ [] "evil/name" "x" none).2.2,
          isFsTouching ev = false) :=
  ⟨Or.inl (by decide),
    C10_createPage_early_failure ⟨"/g", "/cwd"⟩ [] "evil/name" "x" none
      (Or.inl (by decide))⟩

/-! ### Support lemmas for the store-operation claims -/

theorem lstatE_updateEntry_self (fs : FS) (p : String) (e : Entry) :
    lstatE (updateEntry fs p e) p = some e := by
  induction fs with
  | nil => simp [updateEntry, lstatE]
  | cons kv rest ih =>
    by_cases h : kv.1 = p
    · simp [updateEntry, lstatE, h]
    · simp only [updateEntry, lstatE, if_neg h]
      exact ih

theorem lstatE_updateEntry_ne (fs : FS) (p q : String) (e : Entry) (h : q ≠ p) :
    lstatE (updateEntry fs p e) q = lstatE fs q := by
  induction fs with
  | nil =>
    simp only [updateEntry, lstatE]
    rw [if_neg (fun hh => h hh.symm)]
  | cons kv rest ih =>
    by_cases hk : kv.1 = p
    · simp only [updateEntry, if_pos hk, lstatE]
      rw [if_neg (fun hh => h hh.symm), if_neg (hk ▸ fun hh => h hh.symm)]
    · simp only [updateEntry, if_neg hk, lstatE]
      by_cases hq : kv.1 = q
      · rw [if_pos hq, if_pos hq]
      · rw [if_neg hq, if_neg hq]
        exact ih

theorem jsJoin_ne_left (a b : String) : jsJoin a b ≠ a := by
  intro h
  have := congrArg (fun s => s.data.length) h
  simp [jsJoin, String.data_append] at this

theorem isInfixL_of_mem (c : Char) (l : List Char) (h : c ∈ l) :
    isInfixL [c] l = true := by
  induction l with
  | nil => cases h
  | cons x xs ih =>
    rcases List.mem_cons.mp h with h' | h'
    · subst h'
      simp [isInfixL, List.isPrefixOf]
    · simp [isInfixL, ih h']

theorem validatePageName_ok_facts (name : String)
    (h : validatePageName name = .ok ()) :
    name.data ≠ [] ∧ '/' ∉ name.data := by
  unfold validatePageName at h
  split at h
  · cases h
  · split at h
    · cases h
    · split at h
      · cases h
      · split at h
        · cases h
        · rename_i h1 h2 h3 h4
          push_neg at h3
          refine ⟨h3.1, ?_⟩
          intro hmem
          apply h4
          have : jsIncludes name "/" = true := isInfixL_of_mem '/' name.data hmem
          simp [this]

theorem isSuffixOf_append_self (a b : List Char) : b.isSuffixOf (a ++ b) = true := by
  show (b.reverse.isPrefixOf (a ++ b).reverse) = true
  rw [List.reverse_append]
  exact isPrefixOf_append_self _ _

theorem string_append_ne_of_ne_nil (I suf : String) (hne : I.data ≠ []) :
    (I ++ suf) ≠ suf := by
  intro h
  have := congrArg (fun s => s.data.length) h
  simp [String.data_append] at this
  exact hne (List.eq_nil_of_length_eq_zero this)

theorem stripMd_append (I : String) (hne : I.data ≠ []) :
    stripMd (I ++ ".md") = I := by
  unfold stripMd
  have h1 : jsEndsWith (I ++ ".md") ".md" = true := by
    unfold jsEndsWith
    rw [String.data_append]
    exact isSuffixOf_append_self _ _
  have h2 : ((I ++ ".md") != ".md") = true := by
    simp only [bne_iff_ne, ne_eq]
    exact string_append_ne_of_ne_nil I ".md" hne
  rw [if_pos (by rw [h1, h2]; rfl)]
  apply String.ext
  show ((I ++ ".md").data.take ((I ++ ".md").data.length - 3)) = I.data
  rw [String.data_append]
  have h3 : (I.data ++ (".md" : String).data).length - 3 = I.data.length := by
    simp [String.data_append]
  rw [h3]
  exact List.take_left I.data _

theorem basenameOf_jsJoin (p n : String) (h : '/' ∉ n.data) :
    basenameOf (jsJoin p n) = n := by
  unfold basenameOf
  have hdata : (jsJoin p n).data = p.data ++ '/' :: n.data := by
    show (p ++ "/" ++ n).data = _
    simp [String.data_append]
  rw [hdata, splitCh_append, splitCh_no_sep '/' n.data h]
  apply String.ext
  show (splitCh '/' p.data ++ [n.data]).getLastD [] = n.data
  simp

theorem goodComp_append_md (I : String) (hne : I.data ≠ []) :
    goodComp (I ++ ".md").data := by
  have hlen : (I ++ ".md").data.length = I.data.length + 3 := by
    simp [String.data_append]
  have hpos : 0 < I.data.length := List.length_pos.mpr hne
  refine ⟨?_, ?_, ?_⟩ <;> intro h <;>
    (have hlc := congrArg List.length h
     rw [hlen] at hlc
     simp only [List.length_nil, List.length_cons] at hlc
     omega)

theorem no_slash_append_md (I : String) (h : '/' ∉ I.data) :
    '/' ∉ (I ++ ".md").data := by
  rw [String.data_append]
  intro hmem
  rcases List.mem_append.mp hmem with h' | h'
  · exact h h'
  · simp at h'

theorem statOk_file (fs : FS) (p : String) (c : String) (nl : Nat)
    (h : lstatE fs p = some (.file c nl)) : statOk fs p = true := by
  unfold statOk
  rw [h]

/-- Reading an identifier whose file exists in the pages directory of a
canonical root: the result is the parsed page. -/
theorem readPage_simple (cfg : Cfg) (fs : FS) (I c : String) (nl : Nat)
    (hcanon : canonicalStr cfg.graphPath) (hroot : cfg.graphPath ≠ "/")
    (hne : I.data ≠ []) (hslash : '/' ∉ I.data)
    (hfile : lstatE fs (jsJoin cfg.pagesPath (I ++ ".md")) = some (.file c nl)) :
    (readPage cfg fs I).1 = .ok
      { path := stripRootPrefix cfg.graphPath (jsJoin cfg.pagesPath (I ++ ".md")),
        name := I, content := (parseProperties c).2,
        properties := (parseProperties c).1,
        tags := extractTags c, links := extractLinks c,
        backlinks := ((collectAllPages cfg fs).1.filter
          fun p => decide (I ∈ p.links)).map (fun p => p.name),
        isJournal := jsIncludes (jsJoin cfg.pagesPath (I ++ ".md")) "/journals/" } := by
  have hvp : validatePath cfg (jsJoin cfg.pagesPath (I ++ ".md"))
      = .ok (jsJoin cfg.pagesPath (I ++ ".md")) :=
    validatePath_ok_join cfg hcanon hroot "pages" (I ++ ".md")
      (by decide) (by decide) (goodComp_append_md I hne) (no_slash_append_md I hslash)
  have hres : resolvePathE cfg fs I
      = (.ok (jsJoin cfg.pagesPath (I ++ ".md")),
          [.pathValidated (jsJoin cfg.pagesPath (I ++ ".md"))]) := by
    unfold resolvePathE
    rw [if_neg hslash]
    simp only [hvp]
    rw [if_pos (statOk_file _ _ _ _ hfile)]
  have hsym : checkSymlink fs (jsJoin cfg.pagesPath (I ++ ".md")) = .ok () := by
    unfold checkSymlink
    rw [hfile]
  have hread : readFileE fs (jsJoin cfg.pagesPath (I ++ ".md")) = .ok c := by
    unfold readFileE
    rw [hfile]
  have hname : stripMd (basenameOf (jsJoin cfg.pagesPath (I ++ ".md"))) = I := by
    rw [basenameOf_jsJoin _ _ (no_slash_append_md I hslash), stripMd_append I hne]
  simp only [readPage, hres, hsym, hread, hname]

/-- **C3**: with a canonical graph root, a valid identifier and a target file
not yet present, `createPage(I, c)` succeeds; an immediately following
`createPage(I, c')` fails with AlreadyExists (the exclusive `wx` write
reports `EEXIST`) and leaves the store exactly as the first call left it;
and `readPage(I)` returns the content `c` stored by the first call,
unaffected by the second attempt. -/
theorem C3_create_exclusive (cfg : Cfg) (fs : FS) (I c c' : String)
    (hcanon : canonicalStr cfg.graphPath) (hroot : cfg.graphPath ≠ "/")
    (hname : validatePageName I = .ok ())
    (hsize : validateContentSize c = .ok ())
    (hsize' : validateContentSize c' = .ok ())
    (hbody : (parseProperties c).2 = c)
    (hdir : lstatE fs cfg.pagesPath = some .dir ∨ lstatE fs cfg.pagesPath = none)
    (habsent : lstatE fs (jsJoin cfg.pagesPath (I ++ ".md")) = none) :
    ∃ pg fs₁ tr, createPage cfg fs I c none = (.ok pg, fs₁, tr)
      ∧ (createPage cfg fs₁ I c' none).1 = .error .alreadyExists
      ∧ (createPage cfg fs₁ I c' none).2.1 = fs₁
      ∧ (readPage cfg fs₁ I).1 = .ok pg
      ∧ pg.content = c := by
  obtain ⟨hne, hslash⟩ := validatePageName_ok_facts I hname
  set filePath := jsJoin cfg.pagesPath (I ++ ".md") with hfp
  have hvp : validatePath cfg filePath = .ok filePath :=
    validatePath_ok_join cfg hcanon hroot "pages" (I ++ ".md")
      (by decide) (by decide) (goodComp_append_md I hne) (no_slash_append_md I hslash)
  have hne_paths : filePath ≠ cfg.pagesPath := jsJoin_ne_left cfg.pagesPath (I ++ ".md")
  obtain ⟨fs1, hmk, hdir1, habs1⟩ :
      ∃ fs1, mkdirRecE fs cfg.pagesPath = .ok fs1
        ∧ lstatE fs1 cfg.pagesPath = some .dir
        ∧ lstatE fs1 filePath = none := by
    rcases hdir with hd | hd
    · exact ⟨fs, by unfold mkdirRecE; rw [hd], hd, habsent⟩
    · refine ⟨updateEntry fs cfg.pagesPath .dir, by unfold mkdirRecE; rw [hd], ?_, ?_⟩
      · exact lstatE_updateEntry_self fs cfg.pagesPath .dir
      · rw [lstatE_updateEntry_ne fs cfg.pagesPath filePath .dir hne_paths]
        exact habsent
  have hsym1 : checkSymlink fs1 filePath = .ok () := by
    unfold checkSymlink
    rw [habs1]
  have hwx : writeFileWxE fs1 filePath c = .ok (updateEntry fs1 filePath (.file c 1)) := by
    unfold writeFileWxE
    rw [habs1]
  set fs2 := updateEntry fs1 filePath (.file c 1) with hfs2
  have hfile2 : lstatE fs2 filePath = some (.file c 1) :=
    lstatE_updateEntry_self fs1 filePath (.file c 1)
  have hrp := readPage_simple cfg fs2 I c 1 hcanon hroot hne hslash hfile2
  have hcreate1 : createPage cfg fs I c none
      = ((readPage cfg fs2 I).1, fs2,
          [Event.pathValidated filePath, Event.mkdirEv cfg.pagesPath,
            Event.symlinkChecked filePath, Event.writeEv filePath]
          ++ (readPage cfg fs2 I).2) := by
    simp only [createPage, hname, hvp, hsize, hmk, hsym1, buildContent, hwx]
    simp
  have hdir2 : lstatE fs2 cfg.pagesPath = some .dir := by
    rw [lstatE_updateEntry_ne fs1 filePath cfg.pagesPath _
      (fun hh => hne_paths hh.symm)]
    exact hdir1
  have hmk2 : mkdirRecE fs2 cfg.pagesPath = .ok fs2 := by
    unfold mkdirRecE
    rw [hdir2]
  have hsym2 : checkSymlink fs2 filePath = .ok () := by
    unfold checkSymlink
    rw [hfile2]
  have hwx2 : writeFileWxE fs2 filePath c' = .error .eexist := by
    unfold writeFileWxE
    rw [hfile2]
  have hcreate2 : createPage cfg fs2 I c' none
      = (.error .alreadyExists, fs2,
          [Event.pathValidated filePath, Event.mkdirEv cfg.pagesPath,
            Event.symlinkChecked filePath]) := by
    simp only [createPage, hname, hvp, hsize', hmk2, hsym2, buildContent, hwx2]
    simp
  obtain ⟨pgval, hpg, hpgc⟩ :
      ∃ pg, (readPage cfg fs2 I).1 = .ok pg ∧ pg.content = c := ⟨_, hrp, hbody⟩
  refine ⟨pgval, fs2,
    [Event.pathValidated filePath, Event.mkdirEv cfg.pagesPath,
      Event.symlinkChecked filePath, Event.writeEv filePath]
      ++ (readPage cfg fs2 I).2,
    ?_, ?_, ?_, hpg, hpgc⟩
  · rw [hcreate1, hpg]
  · rw [hcreate2]
  · rw [hcreate2]

/-- Witness for C3: creating `Note` twice under root `/g`. -/
theorem C3_create_exclusive_witness :
    (canonicalStr ("/g" : String)
      ∧ ("/g" : String) ≠ "/"
      ∧ validatePageName "Note" = .ok ()
      ∧ validateContentSize "hello" = .ok ()
      ∧ validateContentSize "bye" = .ok ()
      ∧ (parseProperties "hello").2 = "hello"
      ∧ (lstatE [(Cfg.pagesPath ⟨"/g", "/cwd"⟩, Entry.dir)]
          (Cfg.pagesPath ⟨"/g", "/cwd"⟩) = some .dir
        ∨ lstatE [(Cfg.pagesPath ⟨"/g", "/cwd"⟩, Entry.dir)]
            (Cfg.pagesPath ⟨"/g", "/cwd"⟩) = none)
      ∧ lstatE [(Cfg.pagesPath ⟨"/g", "/cwd"⟩, Entry.dir)]
          (jsJoin (Cfg.pagesPath ⟨"/g", "/cwd"⟩) ("Note" ++ ".md")) = none)
    ∧ (∃ pg fs₁ tr,
        createPage ⟨"/g", "/cwd"⟩ [(Cfg.pagesPath ⟨"/g", "/cwd"⟩, Entry.dir)]
            "Note" "hello" none = (.ok pg, fs₁, tr)
          ∧ (createPage ⟨"/g", "/cwd"⟩ fs₁ "Note" "bye" none).1
              = .error .alreadyExists
          ∧ (createPage ⟨"/g", "/cwd"⟩ fs₁ "Note" "bye" none).2.1 = fs₁
          ∧ (readPage ⟨"/g", "/cwd"⟩ fs₁ "Note").1 = .ok pg
          ∧ pg.content = "hello") :=
  ⟨⟨by unfold canonicalStr; decide, by decide, by decide, by decide, by decide,
      by decide, Or.inl (by decide), by decide⟩,
    C3_create_exclusive ⟨"/g", "/cwd"⟩ [(Cfg.pagesPath ⟨"/g", "/cwd"⟩, Entry.dir)]
      "Note" "hello" "bye" (by unfold canonicalStr; decide) (by decide) (by decide)
      (by decide) (by decide) (by decide) (Or.inl (by decide)) (by decide)⟩

/-! ### C7: append semantics -/

/-- **C7 counterexample**: the existing content is passed through
`trimEnd()` before the separating newline is added, so for an existing
content ending in a newline the stored result is *not* the old content
followed by a newline followed by the addition: appending `"b"` to a file
holding `"a\n"` stores `"a\nb"`, not `"a\n\nb"`. -/
theorem C7_counterexample :
    lstatE (appendToPage ⟨"/g", "/cwd"⟩
        [("/g", .dir), ("/g/pages", .dir), ("/g/pages/B.md", .file "a\n" 1)]
        "B" "b").2.1 "/g/pages/B.md" = some (.file "a\nb" 1)
    ∧ lstatE (appendToPage ⟨"/g", "/cwd"⟩
        [("/g", .dir), ("/g/pages", .dir), ("/g/pages/B.md", .file "a\n" 1)]
        "B" "b").2.1 "/g/pages/B.md" ≠ some (.file "a\n\nb" 1) := by
  refine ⟨by decide, by decide⟩

/-- **C7 (amended)**: for an existing document with current content `e`,
`appendToPage` reads `e`, forms `trimEnd(e) ++ "\n" ++ c` (the existing
content's *trailing whitespace is removed* before the separating newline),
re-validates the combined content against the 10 MiB cap before writing —
on success the stored result is exactly `trimEnd(e) ++ "\n" ++ c` with all
other entries untouched, and when the cap is exceeded the call fails with
ContentTooLarge and the store is completely unchanged. -/
theorem C7_append_amended (cfg : Cfg) (fs : FS) (pathOrName content t e : String)
    (nl : Nat)
    (hsize : validateContentSize content = .ok ())
    (hres : (resolvePathE cfg fs pathOrName).1 = .ok t)
    (hfile : lstatE fs t = some (.file e nl)) :
    (validateContentSize (jsTrimEnd e ++ "\n" ++ content) = .ok () →
      lstatE (appendToPage cfg fs pathOrName content).2.1 t
          = some (.file (jsTrimEnd e ++ "\n" ++ content) nl)
      ∧ ∀ q, q ≠ t →
          lstatE (appendToPage cfg fs pathOrName content).2.1 q = lstatE fs q)
    ∧ (validateContentSize (jsTrimEnd e ++ "\n" ++ content)
          = .error .contentTooLarge →
        (appendToPage cfg fs pathOrName content).1 = .error .contentTooLarge
        ∧ (appendToPage cfg fs pathOrName content).2.1 = fs) := by
  obtain ⟨evs, hres'⟩ : ∃ evs, resolvePathE cfg fs pathOrName = (.ok t, evs) := by
    cases h : resolvePathE cfg fs pathOrName with
    | mk r ev =>
      rw [h] at hres
      exact ⟨ev, by rw [show r = Except.ok t from hres]⟩
  have hsym : checkSymlink fs t = .ok () := by
    unfold checkSymlink
    rw [hfile]
  have hread : readFileE fs t = .ok e := by
    unfold readFileE
    rw [hfile]
  have hwrite : writeFileE fs t (jsTrimEnd e ++ "\n" ++ content)
      = .ok (updateEntry fs t (.file (jsTrimEnd e ++ "\n" ++ content) nl)) := by
    unfold writeFileE
    rw [hfile]
  constructor
  · intro hok
    have happ : (appendToPage cfg fs pathOrName content).2.1
        = updateEntry fs t (.file (jsTrimEnd e ++ "\n" ++ content) nl) := by
      simp only [appendToPage, hsize, hres', hsym, hread, hok, hwrite]
    rw [happ]
    exact ⟨lstatE_updateEntry_self _ _ _,
      fun q hq => lstatE_updateEntry_ne _ _ _ _ hq⟩
  · intro herr
    constructor
    · simp only [appendToPage, hsize, hres', hsym, hread, herr]
    · simp only [appendToPage, hsize, hres', hsym, hread, herr]

/-- Witness for C7: appending `"b"` to a page holding `"a"`. -/
theorem C7_append_amended_witness :
    (validateContentSize "b" = .ok ()
      ∧ (resolvePathE ⟨"/g", "/cwd"⟩
          [("/g", .dir), ("/g/pages", .dir), ("/g/pages/B.md", .file "a" 1)]
          "B").1 = .ok "/g/pages/B.md"
      ∧ lstatE [("/g", .dir), ("/g/pages", .dir), ("/g/pages/B.md", .file "a" 1)]
          "/g/pages/B.md" = some (.file "a" 1))
    ∧ ((validateContentSize (jsTrimEnd "a" ++ "\n" ++ "b") = .ok () →
        lstatE (appendToPage ⟨"/g", "/cwd"⟩
            [("/g", .dir), ("/g/pages", .dir), ("/g/pages/B.md", .file "a" 1)]
            "B" "b").2.1 "/g/pages/B.md"
            = some (.file (jsTrimEnd "a" ++ "\n" ++ "b") 1)
        ∧ ∀ q, q ≠ "/g/pages/B.md" →
            lstatE (appendToPage ⟨"/g", "/cwd"⟩
              [("/g", .dir), ("/g/pages", .dir), ("/g/pages/B.md", .file "a" 1)]
              "B" "b").2.1 q
              = lstatE [("/g", .dir), ("/g/pages", .dir),
                  ("/g/pages/B.md", .file "a" 1)] q)
      ∧ (validateContentSize (jsTrimEnd "a" ++ "\n" ++ "b")
            = .error .contentTooLarge →
          (appendToPage ⟨"/g", "/cwd"⟩
            [("/g", .dir), ("/g/pages", .dir), ("/g/pages/B.md", .file "a" 1)]
            "B" "b").1 = .error .contentTooLarge
          ∧ (appendToPage ⟨"/g", "/cwd"⟩
              [("/g", .dir), ("/g/pages", .dir), ("/g/pages/B.md", .file "a" 1)]
              "B" "b").2.1
              = [("/g", .dir), ("/g/pages", .dir), ("/g/pages/B.md", .file "a" 1)])) :=
  ⟨⟨by decide, by decide, by decide⟩,
    C7_append_amended ⟨"/g", "/cwd"⟩
      [("/g", .dir), ("/g/pages", .dir), ("/g/pages/B.md", .file "a" 1)]
      "B" "b" "/g/pages/B.md" "a" 1 (by decide) (by decide) (by decide)⟩

/-! ### C2: backlinks are the exact inverse of the link relation -/

theorem mem_addUnique (xs : List String) (x y : String) :
    y ∈ addUnique xs x ↔ y ∈ xs ∨ y = x := by
  unfold addUnique
  split
  · rename_i hx
    constructor
    · exact Or.inl
    · rintro (h | h)
      · exact h
      · exact h ▸ hx
  · simp

theorem addUnique_nodup (xs : List String) (x : String) (h : xs.Nodup) :
    (addUnique xs x).Nodup := by
  unfold addUnique
  split
  · exact h
  · rename_i hx
    simp [List.nodup_append, h, hx]

theorem foldl_addUnique_nodup (xs : List String) (acc : List String)
    (h : acc.Nodup) : (xs.foldl addUnique acc).Nodup := by
  induction xs generalizing acc with
  | nil => exact h
  | cons y ys ih => exact ih _ (addUnique_nodup acc y h)

theorem extractLinks_nodup (s : String) : (extractLinks s).Nodup :=
  foldl_addUnique_nodup _ [] (by simp)

theorem mem_foldl_addUnique (xs : List String) (acc : List String) (x : String)
    (h : x ∈ acc ∨ x ∈ xs) : x ∈ xs.foldl addUnique acc := by
  induction xs generalizing acc with
  | nil => exact h.elim id (fun h => absurd h (List.not_mem_nil x))
  | cons y ys ih =>
    rcases h with h | h
    · exact ih _ (Or.inl ((mem_addUnique acc y x).mpr (Or.inl h)))
    · rcases List.mem_cons.mp h with h | h
      · exact ih _ (Or.inl ((mem_addUnique acc y x).mpr (Or.inr h)))
      · exact ih _ (Or.inr h)

theorem collectFolder_links_nodup (fs : FS) (dirPath rel : String) (isJ : Bool)
    (files : List String) :
    ∀ p ∈ (collectFolder fs dirPath rel isJ files).1, p.links.Nodup := by
  induction files with
  | nil => intro p hp; simp [collectFolder] at hp
  | cons file rest ih =>
    intro p hp
    by_cases hmd : isMdFile file
    · rw [show collectFolder fs dirPath rel isJ (file :: rest)
          = (if isMdFile file then
              match lstatE fs (jsJoin dirPath file) with
              | some (.symlink _) => collectFolder fs dirPath rel isJ rest
              | none => collectFolder fs dirPath rel isJ rest
              | some .dir => ([], [])
              | some (.file content _) =>
                (({ path := jsJoin rel file, name := stripMd file,
                    tags := extractTags content, links := extractLinks content,
                    backlinks := [], isJournal := isJ } : PageMetadata)
                    :: (collectFolder fs dirPath rel isJ rest).1,
                  Event.readEv (jsJoin dirPath file)
                    :: (collectFolder fs dirPath rel isJ rest).2)
            else collectFolder fs dirPath rel isJ rest) from rfl,
        if_pos hmd] at hp
      cases hls : lstatE fs (jsJoin dirPath file) with
      | none => rw [hls] at hp; exact ih p hp
      | some e =>
        rw [hls] at hp
        cases e with
        | symlink te => exact ih p hp
        | dir => simp at hp
        | file content nl =>
          rcases List.mem_cons.mp hp with h | h
          · subst h
            exact extractLinks_nodup _
          · exact ih p h
    · rw [show collectFolder fs dirPath rel isJ (file :: rest)
          = (if isMdFile file then
              match lstatE fs (jsJoin dirPath file) with
              | some (.symlink _) => collectFolder fs dirPath rel isJ rest
              | none => collectFolder fs dirPath rel isJ rest
              | some .dir => ([], [])
              | some (.file content _) =>
                (({ path := jsJoin rel file, name := stripMd file,
                    tags := extractTags content, links := extractLinks content,
                    backlinks := [], isJournal := isJ } : PageMetadata)
                    :: (collectFolder fs dirPath rel isJ rest).1,
                  Event.readEv (jsJoin dirPath file)
                    :: (collectFolder fs dirPath rel isJ rest).2)
            else collectFolder fs dirPath rel isJ rest) from rfl,
        if_neg hmd] at hp
      exact ih p hp

theorem collectAllPages_links_nodup (cfg : Cfg) (fs : FS) :
    ∀ p ∈ (collectAllPages cfg fs).1, p.links.Nodup := by
  intro p hp
  have h1 : (collectAllPages cfg fs).1
      = (match readdirE fs cfg.pagesPath with
          | .ok files => collectFolder fs cfg.pagesPath "pages" false files
          | .error _ => ([], [])).1
        ++ (match readdirE fs cfg.journalsPath with
          | .ok files => collectFolder fs cfg.journalsPath "journals" true files
          | .error _ => ([], [])).1 := rfl
  rw [h1] at hp
  rcases List.mem_append.mp hp with h | h
  · cases hr : readdirE fs cfg.pagesPath with
    | ok files =>
      rw [hr] at h
      exact collectFolder_links_nodup _ _ _ _ _ p h
    | error e =>
      rw [hr] at h
      simp at h
  · cases hr : readdirE fs cfg.journalsPath with
    | ok files =>
      rw [hr] at h
      exact collectFolder_links_nodup _ _ _ _ _ p h
    | error e =>
      rw [hr] at h
      simp at h

theorem getD_pushVal_self (m : List (String × List String)) (k v : String) :
    getD (pushVal m k v) k = getD m k ++ [v] := by
  induction m with
  | nil => simp [pushVal, getD]
  | cons kv rest ih =>
    by_cases h : kv.1 = k
    · simp [pushVal, getD, h]
    · simp only [pushVal, if_neg h, getD]
      exact ih

theorem getD_pushVal_ne (m : List (String × List String)) (k v k' : String)
    (h : k' ≠ k) : getD (pushVal m k v) k' = getD m k' := by
  induction m with
  | nil =>
    simp only [pushVal, getD]
    rw [if_neg (fun hh => h hh.symm)]
  | cons kv rest ih =>
    by_cases hk : kv.1 = k
    · simp only [pushVal, if_pos hk, getD]
      rw [if_neg (fun hh => h hh.symm), if_neg (hk ▸ fun hh => h hh.symm)]
    · simp only [pushVal, if_neg hk, getD]
      by_cases hq : kv.1 = k'
      · rw [if_pos hq, if_pos hq]
      · rw [if_neg hq, if_neg hq]
        exact ih

theorem getD_addLinksOf (m : List (String × List String)) (name k : String)
    (ls : List String) (hnd : ls.Nodup) :
    getD (addLinksOf m name ls) k
      = getD m k ++ (if k ∈ ls then [name] else []) := by
  induction ls generalizing m with
  | nil => simp [addLinksOf]
  | cons l ls ih =>
    have hnd' : ls.Nodup := hnd.of_cons
    show getD (addLinksOf (pushVal m l name) name ls) k = _
    rw [ih _ hnd']
    by_cases hk : k = l
    · subst hk
      rw [getD_pushVal_self]
      have hkls : k ∉ ls := by
        intro hmem
        exact (List.nodup_cons.mp hnd).1 hmem
      rw [if_neg hkls, if_pos (List.mem_cons_self k ls)]
      simp
    · rw [getD_pushVal_ne _ _ _ _ hk]
      by_cases hmem : k ∈ ls
      · rw [if_pos hmem, if_pos (List.mem_cons_of_mem l hmem)]
      · rw [if_neg hmem, if_neg (by
          intro hc
          rcases List.mem_cons.mp hc with h | h
          · exact hk h
          · exact hmem h)]

theorem getD_buildBacklinks (m : List (String × List String)) (k : String)
    (ps : List PageMetadata) (hnd : ∀ p ∈ ps, p.links.Nodup) :
    getD (buildBacklinks m ps) k
      = getD m k ++ ((ps.filter fun p => decide (k ∈ p.links)).map fun p => p.name) := by
  induction ps generalizing m with
  | nil => simp [buildBacklinks]
  | cons p ps ih =>
    show getD (buildBacklinks (addLinksOf m p.name p.links) ps) k = _
    rw [ih _ (fun q hq => hnd q (List.mem_cons_of_mem p hq)),
      getD_addLinksOf _ _ _ _ (hnd p (List.mem_cons_self p ps))]
    by_cases hmem : k ∈ p.links
    · rw [if_pos hmem, List.filter_cons_of_pos (by simpa using hmem)]
      simp
    · rw [if_neg hmem, List.filter_cons_of_neg (by simpa using hmem)]
      simp

/-- Step lemma for the link scanner: a character pair that is not `[[`
advances the scan by one character. -/
theorem linkScanAux_cons_ne (n : Nat) (c1 c2 : Char) (rest2 : List Char)
    (hc : ¬ (c1 = '[' ∧ c2 = '[')) :
    linkScanAux (n + 1) (c1 :: c2 :: rest2) = linkScanAux n (c2 :: rest2) := by
  simp only [linkScanAux]
  rw [if_neg hc]

theorem takeWhile_append_cons (p : Char → Bool) (B : List Char) (x : Char)
    (xs : List Char) (hB : ∀ b ∈ B, p b = true) (hx : p x = false) :
    (B ++ x :: xs).takeWhile p = B := by
  induction B with
  | nil => simp [List.takeWhile, hx]
  | cons b bs ih =>
    have hb := hB b (List.mem_cons_self b bs)
    show List.takeWhile p (b :: (bs ++ x :: xs)) = b :: bs
    rw [List.takeWhile_cons, hb]
    simp only [if_true]
    rw [ih (fun y hy => hB y (List.mem_cons_of_mem b hy))]

/-- Step lemma for the link scanner: a well-formed `[[B]]` at the head is
captured. -/
theorem linkScanAux_success (n : Nat) (B post : List Char) (hB : B ≠ [])
    (hBc : ∀ b ∈ B, isLinkCapChar b = true) :
    linkScanAux (n + 1) ('[' :: '[' :: (B ++ ']' :: ']' :: post))
      = (⟨B⟩ : String) :: linkScanAux n post := by
  have hcap : (B ++ ']' :: ']' :: post).takeWhile isLinkCapChar = B :=
    takeWhile_append_cons _ _ _ _ hBc (by simp [isLinkCapChar])
  have hdrop : (B ++ ']' :: ']' :: post).drop B.length = ']' :: ']' :: post :=
    List.drop_left B _
  simp only [linkScanAux]
  rw [if_pos ⟨trivial, trivial⟩, hcap, if_neg hB, hdrop]
  rfl

theorem mem_linkScan_shape (pre : List Char) (n : Nat) (B post : List Char)
    (hn : pre.length + (B.length + post.length + 4) ≤ n)
    (hpre : '[' ∉ pre) (hB : B ≠ [])
    (hBc : ∀ b ∈ B, isLinkCapChar b = true) :
    (⟨B⟩ : String) ∈ linkScanAux n (pre ++ '[' :: '[' :: (B ++ ']' :: ']' :: post)) := by
  induction pre generalizing n with
  | nil =>
    obtain ⟨m, rfl⟩ : ∃ m, n = m + 1 := ⟨n - 1, by omega⟩
    rw [List.nil_append, linkScanAux_success m B post hB hBc]
    exact List.mem_cons_self _ _
  | cons c pre' ih =>
    obtain ⟨m, rfl⟩ : ∃ m, n = m + 1 := ⟨n - 1, by omega⟩
    have hc : c ≠ '[' := fun h => hpre (h ▸ List.mem_cons_self c pre')
    have hpre' : '[' ∉ pre' := fun h => hpre (List.mem_cons_of_mem c h)
    obtain ⟨c2, rest2, hsh⟩ :
        ∃ c2 rest2, pre' ++ '[' :: '[' :: (B ++ ']' :: ']' :: post)
          = c2 :: rest2 := by
      cases h : pre' ++ '[' :: '[' :: (B ++ ']' :: ']' :: post) with
      | nil => exact absurd h (by simp)
      | cons c2 rest2 => exact ⟨c2, rest2, rfl⟩
    show (⟨B⟩ : String) ∈ linkScanAux (m + 1)
      (c :: (pre' ++ '[' :: '[' :: (B ++ ']' :: ']' :: post)))
    rw [hsh, linkScanAux_cons_ne m c c2 rest2 (fun hcc => hc hcc.1), ← hsh]
    exact ih m (by simp only [List.length_cons] at hn; omega) hpre'

theorem mem_extractLinks_shape (content B : String) (pre post : List Char)
    (hdata : content.data = pre ++ '[' :: '[' :: (B.data ++ ']' :: ']' :: post))
    (hpre : '[' ∉ pre) (hB : B.data ≠ [])
    (hBc : ∀ b ∈ B.data, isLinkCapChar b = true) :
    B ∈ extractLinks content := by
  have hmem : (⟨B.data⟩ : String)
      ∈ linkScanAux content.data.length content.data := by
    rw [hdata]
    apply mem_linkScan_shape pre _ B.data post ?_ hpre hB hBc
    simp only [List.length_append, List.length_cons]
    omega
  unfold extractLinks
  exact mem_foldl_addUnique _ [] B (Or.inr hmem)

/-- **C2**: for every store state, the backlinks reported by `listPages` for
a document B are exactly the names of the documents whose extracted links
contain B's identifier, in index order, recomputed purely from the current
store (`listPages` is a function of the present filesystem alone, so an
update is reflected by the next call); a body containing a well-formed
`[[B]]` occurrence yields B among the extracted links; and in the concrete
update scenario, after A is rewritten without the link a fresh `listPages`
no longer reports A among B's backlinks. -/
theorem C2_backlinks_exact (cfg : Cfg) (fs : FS) :
    (∀ folder B, B ∈ (listPages cfg fs folder).1 →
      B.backlinks = (((collectAllPages cfg fs).1.filter
          fun A => decide (B.name ∈ A.links)).map fun A => A.name))
    ∧ (∀ folder B aname, B ∈ (listPages cfg fs folder).1 →
        (aname ∈ B.backlinks ↔
          ∃ A ∈ (collectAllPages cfg fs).1, A.name = aname ∧ B.name ∈ A.links))
    ∧ (∀ (content B : String) (pre post : List Char),
        content.data = pre ++ '[' :: '[' :: (B.data ++ ']' :: ']' :: post) →
        '[' ∉ pre → B.data ≠ [] → (∀ b ∈ B.data, isLinkCapChar b = true) →
        B ∈ extractLinks content)
    ∧ ((listPages ⟨"/g", "/cwd"⟩
          [("/g", .dir), ("/g/pages", .dir),
            ("/g/pages/A.md", .file "[[B]]" 1), ("/g/pages/B.md", .file "x" 1)]
          none).1.map (fun p => (p.name, p.backlinks)) = [("A", []), ("B", ["A"])]
      ∧ (listPages ⟨"/g", "/cwd"⟩
          (updatePage ⟨"/g", "/cwd"⟩
            [("/g", .dir), ("/g/pages", .dir),
              ("/g/pages/A.md", .file "[[B]]" 1), ("/g/pages/B.md", .file "x" 1)]
            "A" "no link now" none).2.1
          none).1.map (fun p => (p.name, p.backlinks)) = [("A", []), ("B", [])]) := by
  have hmain : ∀ folder B, B ∈ (listPages cfg fs folder).1 →
      B.backlinks = (((collectAllPages cfg fs).1.filter
        fun A => decide (B.name ∈ A.links)).map fun A => A.name)
      ∧ ∃ p : PageMetadata, B.name = p.name := by
    intro folder B hB
    simp only [listPages] at hB
    obtain ⟨p, hp, hfp⟩ := List.mem_map.mp hB
    refine ⟨?_, ⟨p, by rw [← hfp]⟩⟩
    rw [← hfp]
    show getD (buildBacklinks [] (collectAllPages cfg fs).1) p.name = _
    rw [getD_buildBacklinks [] p.name _ (collectAllPages_links_nodup cfg fs)]
    rfl
  refine ⟨fun folder B hB => (hmain folder B hB).1, ?_, ?_, by decide, by decide⟩
  · intro folder B aname hB
    rw [(hmain folder B hB).1]
    constructor
    · intro h
      obtain ⟨A, hA, hAname⟩ := List.mem_map.mp h
      have hA' := List.mem_filter.mp hA
      exact ⟨A, hA'.1, hAname, by simpa using hA'.2⟩
    · rintro ⟨A, hA, hAname, hlink⟩
      exact List.mem_map.mpr ⟨A, List.mem_filter.mpr ⟨hA, by simpa using hlink⟩, hAname⟩
  · exact mem_extractLinks_shape

/-- Witness for C2: the two-page store where `A.md` holds `[[B]]`. -/
theorem C2_backlinks_exact_witness :
    (({ path := "pages/B.md", name := "B", tags := [], links := [],
        backlinks := ["A"], isJournal := false } : PageMetadata)
      ∈ (listPages ⟨"/g", "/cwd"⟩
          [("/g", .dir), ("/g/pages", .dir),
            ("/g/pages/A.md", .file "[[B]]" 1), ("/g/pages/B.md", .file "x" 1)]
          none).1)
    ∧ (({ path := "pages/B.md", name := "B", tags := [], links := [],
          backlinks := ["A"], isJournal := false } : PageMetadata).backlinks
        = (((collectAllPages ⟨"/g", "/cwd"⟩
            [("/g", .dir), ("/g/pages", .dir),
              ("/g/pages/A.md", .file "[[B]]" 1), ("/g/pages/B.md", .file "x" 1)]).1.filter
            fun A => decide (("B" : String) ∈ A.links)).map fun A => A.name)) :=
  ⟨by decide,
    (C2_backlinks_exact ⟨"/g", "/cwd"⟩
      [("/g", .dir), ("/g/pages", .dir),
        ("/g/pages/A.md", .file "[[B]]" 1), ("/g/pages/B.md", .file "x" 1)]).1
      none _ (by decide)⟩

/-! ### C8: search semantics -/

theorem checkRegularFile_ok_file (fs : FS) (p : String)
    (h : checkRegularFile fs p = .ok ()) :
    ∃ c nl, lstatE fs p = some (.file c nl) := by
  unfold checkRegularFile at h
  cases hls : lstatE fs p with
  | none => rw [hls] at h; cases h
  | some e =>
    rw [hls] at h
    cases e with
    | symlink te => cases h
    | dir => cases h
    | file c nl => exact ⟨c, nl, rfl⟩

/-- Characterization of one search match record. -/
theorem mem_searchMatches (lines : List String) (q : String) (m : SearchMatch) :
    m ∈ searchMatches lines q ↔
      ∃ i, i < lines.length
        ∧ jsIncludes (jsToLower (lines.getD i "")) q = true
        ∧ m = ⟨i + 1, lines.getD i "",
            String.intercalate "\n" ((lines.take (i + 2)).drop (i - 1))⟩ := by
  unfold searchMatches
  rw [List.mem_filterMap]
  constructor
  · rintro ⟨i, hi, hf⟩
    rw [List.mem_range] at hi
    split at hf
    · rename_i hcond
      refine ⟨i, hi, hcond, ?_⟩
      injection hf with h
      exact h.symm
    · cases hf
  · rintro ⟨i, hi, hc, hm⟩
    refine ⟨i, List.mem_range.mpr hi, ?_⟩
    rw [if_pos hc, hm]

/-- The per-page search loop on safe candidates: it returns results exactly
for the pages whose name contains the query or whose content has a line
match. -/
theorem searchLoop_ok (cfg : Cfg) (fs : FS) (qLower : String)
    (ps : List PageMetadata)
    (hsafe : ∀ p ∈ ps, checkRegularFile fs (jsJoin cfg.graphPath p.path) = .ok ()) :
    ∃ R, (searchLoop cfg fs qLower none ps).1 = .ok R
      ∧ ∀ page ms, (page, ms) ∈ R ↔
          ∃ content, page ∈ ps
            ∧ readFileE fs (jsJoin cfg.graphPath page.path) = .ok content
            ∧ ms = searchMatches (jsSplit '\n' content) qLower
            ∧ (jsIncludes (jsToLower page.name) qLower = true ∨ ms ≠ []) := by
  induction ps with
  | nil =>
    refine ⟨[], rfl, ?_⟩
    intro page ms
    simp
  | cons page rest ih =>
    have hsafeP := hsafe page (List.mem_cons_self page rest)
    have hsafeR : ∀ p ∈ rest,
        checkRegularFile fs (jsJoin cfg.graphPath p.path) = .ok () :=
      fun p hp => hsafe p (List.mem_cons_of_mem page hp)
    obtain ⟨c0, nl0, hls⟩ := checkRegularFile_ok_file _ _ hsafeP
    have hreadP : readFileE fs (jsJoin cfg.graphPath page.path) = .ok c0 := by
      unfold readFileE
      rw [hls]
    obtain ⟨R', hR', hiff'⟩ := ih hsafeR
    by_cases hcond : jsIncludes (jsToLower page.name) qLower = true
        ∨ searchMatches (jsSplit '\n' c0) qLower ≠ []
    · refine ⟨(page, searchMatches (jsSplit '\n' c0) qLower) :: R', ?_, ?_⟩
      · simp only [searchLoop, hsafeP, hreadP, hR', Bool.false_eq_true, if_false]
        rw [if_pos hcond]
      · intro page' ms'
        constructor
        · intro h
          rcases List.mem_cons.mp h with h | h
          · have hp : page' = page := congrArg Prod.fst h
            have hm : ms' = searchMatches (jsSplit '\n' c0) qLower :=
              congrArg Prod.snd h
            subst hp
            exact ⟨c0, List.mem_cons_self _ _, hreadP, hm, hm ▸ hcond⟩
          · obtain ⟨content, hmem, hread, hms, hc⟩ := (hiff' page' ms').mp h
            exact ⟨content, List.mem_cons_of_mem page hmem, hread, hms, hc⟩
        · rintro ⟨content, hmem, hread, hms, hc⟩
          rcases List.mem_cons.mp hmem with h | h
          · subst h
            have : content = c0 := by
              rw [hreadP] at hread
              injection hread with h'
              exact h'.symm
            subst this
            subst hms
            exact List.mem_cons_self _ _
          · exact List.mem_cons_of_mem _
              ((hiff' page' ms').mpr ⟨content, h, hread, hms, hc⟩)
    · refine ⟨R', ?_, ?_⟩
      · simp only [searchLoop, hsafeP, hreadP, hR', Bool.false_eq_true, if_false]
        rw [if_neg hcond]
      · intro page' ms'
        constructor
        · intro h
          obtain ⟨content, hmem, hread, hms, hc⟩ := (hiff' page' ms').mp h
          exact ⟨content, List.mem_cons_of_mem page hmem, hread, hms, hc⟩
        · rintro ⟨content, hmem, hread, hms, hc⟩
          rcases List.mem_cons.mp hmem with h | h
          · subst h
            have : content = c0 := by
              rw [hreadP] at hread
              injection hread with h'
              exact h'.symm
            subst this
            subst hms
            exact absurd hc hcond
          · exact (hiff' page' ms').mpr ⟨content, h, hread, hms, hc⟩

/-- **C8**: for a query within the length cap and an index whose files all
pass the regular-file check, a document appears in the search results if
and only if its identifier case-insensitively contains the query or its
content has at least one case-insensitively matching line; and every match
record carries the 1-based line number, the line's literal text, and a
3-line context window (previous line, matching line, next line, clipped at
the file boundaries). -/
theorem C8_search_characterization (cfg : Cfg) (fs : FS) (query : String)
    (folder : Option String)
    (hq : query.data.length ≤ 1000)
    (hsafe : ∀ p ∈ (listPages cfg fs folder).1,
      checkRegularFile fs (jsJoin cfg.graphPath p.path) = .ok ()) :
    ∃ R, (searchPages cfg fs query none folder).1 = .ok R
      ∧ (∀ page ms, (page, ms) ∈ R ↔
          ∃ content, page ∈ (listPages cfg fs folder).1
            ∧ readFileE fs (jsJoin cfg.graphPath page.path) = .ok content
            ∧ ms = searchMatches (jsSplit '\n' content) (jsToLower query)
            ∧ (jsIncludes (jsToLower page.name) (jsToLower query) = true
                ∨ ms ≠ []))
      ∧ (∀ lines m, m ∈ searchMatches lines (jsToLower query) ↔
          ∃ i, i < lines.length
            ∧ jsIncludes (jsToLower (lines.getD i "")) (jsToLower query) = true
            ∧ m = ⟨i + 1, lines.getD i "",
                String.intercalate "\n" ((lines.take (i + 2)).drop (i - 1))⟩) := by
  obtain ⟨R, hR, hiff⟩ := searchLoop_ok cfg fs (jsToLower query)
    (listPages cfg fs folder).1 hsafe
  refine ⟨R, ?_, hiff, fun lines m => mem_searchMatches lines _ m⟩
  simp only [searchPages]
  rw [if_neg (by omega)]
  exact hR

/-- Witness for C8: the `searchPages("todo")` scenario with the match on
line 5 and its 3-line context spanning lines 4–6. -/
theorem C8_search_characterization_witness :
    (("todo" : String).data.length ≤ 1000
      ∧ (∀ p ∈ (listPages ⟨"/g", "/cwd"⟩
            [("/g", .dir), ("/g/pages", .dir),
              ("/g/pages/Todo.md",
                .file "l1\nl2\nl3\nl4\n- TODO buy milk\nl6" 1)] none).1,
          checkRegularFile
            [("/g", .dir), ("/g/pages", .dir),
              ("/g/pages/Todo.md",
                .file "l1\nl2\nl3\nl4\n- TODO buy milk\nl6" 1)]
            (jsJoin "/g" p.path) = .ok ()))
    ∧ (∃ R, (searchPages ⟨"/g", "/cwd"⟩
          [("/g", .dir), ("/g/pages", .dir),
            ("/g/pages/Todo.md",
              .file "l1\nl2\nl3\nl4\n- TODO buy milk\nl6" 1)]
          "todo" none none).1 = .ok R
        ∧ (∀ page ms, (page, ms) ∈ R ↔
            ∃ content, page ∈ (listPages ⟨"/g", "/cwd"⟩
                [("/g", .dir), ("/g/pages", .dir),
                  ("/g/pages/Todo.md",
                    .file "l1\nl2\nl3\nl4\n- TODO buy milk\nl6" 1)] none).1
              ∧ readFileE
                  [("/g", .dir), ("/g/pages", .dir),
                    ("/g/pages/Todo.md",
                      .file "l1\nl2\nl3\nl4\n- TODO buy milk\nl6" 1)]
                  (jsJoin "/g" page.path) = .ok content
              ∧ ms = searchMatches (jsSplit '\n' content) (jsToLower "todo")
              ∧ (jsIncludes (jsToLower page.name) (jsToLower "todo") = true
                  ∨ ms ≠ []))
        ∧ (∀ lines m, m ∈ searchMatches lines (jsToLower "todo") ↔
            ∃ i, i < lines.length
              ∧ jsIncludes (jsToLower (lines.getD i "")) (jsToLower "todo") = true
              ∧ m = ⟨i + 1, lines.getD i "",
                  String.intercalate "\n" ((lines.take (i + 2)).drop (i - 1))⟩))
    ∧ (searchPages ⟨"/g", "/cwd"⟩
        [("/g", .dir), ("/g/pages", .dir),
          ("/g/pages/Todo.md", .file "l1\nl2\nl3\nl4\n- TODO buy milk\nl6" 1)]
        "todo" none none).1
        = .ok [(({ path := "pages/Todo.md",
                   name := "Todo",
                   tags := [], links := [], backlinks := [],
                   isJournal := false } : PageMetadata),
          ([⟨5, "- TODO buy milk", "l4\n- TODO buy milk\nl6"⟩]
              : List SearchMatch))] :=
  ⟨⟨by decide, by decide⟩,
    C8_search_characterization ⟨"/g", "/cwd"⟩
      [("/g", .dir), ("/g/pages", .dir),
        ("/g/pages/Todo.md", .file "l1\nl2\nl3\nl4\n- TODO buy milk\nl6" 1)]
      "todo" none (by decide) (by decide),
    by decide⟩

/-! ### C5: safety checks precede filesystem accesses -/

/-- Trace scan: every read, write or unlink of the target path must come
after both a successful path validation and a successful symlink check of
that path.  `sv`/`ss` record whether those checks have been seen. -/
def vsGuarded (t : String) (sv ss : Bool) : List Event → Bool
  | [] => true
  | e :: tr =>
    match e with
    | .pathValidated p => vsGuarded t (sv || p == t) ss tr
    | .symlinkChecked p => vsGuarded t sv (ss || p == t) tr
    | .regularFileChecked _ => vsGuarded t sv ss tr
    | .mkdirEv _ => vsGuarded t sv ss tr
    | .readEv p => if p = t then sv && ss && vsGuarded t sv ss tr
        else vsGuarded t sv ss tr
    | .writeEv p => if p = t then sv && ss && vsGuarded t sv ss tr
        else vsGuarded t sv ss tr
    | .unlinkEv p => if p = t then sv && ss && vsGuarded t sv ss tr
        else vsGuarded t sv ss tr

/-- Trace scan: every read or write must be of a path previously passed by
the regular-file check. -/
def regGuarded (checked : List String) : List Event → Bool
  | [] => true
  | e :: tr =>
    match e with
    | .regularFileChecked p => regGuarded (p :: checked) tr
    | .readEv p => decide (p ∈ checked) && regGuarded checked tr
    | .writeEv p => decide (p ∈ checked) && regGuarded checked tr
    | _ => regGuarded checked tr

theorem vsGuarded_true_true (t : String) (tr : List Event) :
    vsGuarded t true true tr = true := by
  induction tr with
  | nil => rfl
  | cons e tr ih =>
    cases e <;> simp [vsGuarded, ih]

theorem vsGuarded_mono (t : String) (tr : List Event) :
    ∀ sv ss sv' ss', (sv = true → sv' = true) → (ss = true → ss' = true) →
      vsGuarded t sv ss tr = true → vsGuarded t sv' ss' tr = true := by
  induction tr with
  | nil => intro sv ss sv' ss' _ _ _; rfl
  | cons e tr ih =>
    intro sv ss sv' ss' hsv hss h
    cases e with
    | pathValidated p =>
      refine ih (sv || p == t) ss (sv' || p == t) ss' ?_ hss h
      intro hor
      simp only [Bool.or_eq_true] at hor
      rcases hor with h' | h'
      · simp [hsv h']
      · simp [h']
    | symlinkChecked p =>
      refine ih sv (ss || p == t) sv' (ss' || p == t) hsv ?_ h
      intro hor
      simp only [Bool.or_eq_true] at hor
      rcases hor with h' | h'
      · simp [hss h']
      · simp [h']
    | regularFileChecked p => exact ih sv ss sv' ss' hsv hss h
    | mkdirEv p => exact ih sv ss sv' ss' hsv hss h
    | readEv p =>
      simp only [vsGuarded] at h ⊢
      by_cases hp : p = t
      · rw [if_pos hp] at h ⊢
        obtain ⟨h1, h2, h3⟩ : sv = true ∧ ss = true ∧ _ := by
          simpa [Bool.and_eq_true, and_assoc] using h
        simp only [hsv h1, hss h2, Bool.true_and]
        exact vsGuarded_true_true t tr
      · rw [if_neg hp] at h ⊢
        exact ih sv ss sv' ss' hsv hss h
    | writeEv p =>
      simp only [vsGuarded] at h ⊢
      by_cases hp : p = t
      · rw [if_pos hp] at h ⊢
        obtain ⟨h1, h2, h3⟩ : sv = true ∧ ss = true ∧ _ := by
          simpa [Bool.and_eq_true, and_assoc] using h
        simp only [hsv h1, hss h2, Bool.true_and]
        exact vsGuarded_true_true t tr
      · rw [if_neg hp] at h ⊢
        exact ih sv ss sv' ss' hsv hss h
    | unlinkEv p =>
      simp only [vsGuarded] at h ⊢
      by_cases hp : p = t
      · rw [if_pos hp] at h ⊢
        obtain ⟨h1, h2, h3⟩ : sv = true ∧ ss = true ∧ _ := by
          simpa [Bool.and_eq_true, and_assoc] using h
        simp only [hsv h1, hss h2, Bool.true_and]
        exact vsGuarded_true_true t tr
      · rw [if_neg hp] at h ⊢
        exact ih sv ss sv' ss' hsv hss h

/-- Successful path resolution emits only path-validation events, ending
with one for the returned path; scanning them sets the validation flag. -/
theorem resolvePath_evs (cfg : Cfg) (fs : FS) (x t : String) (evs : List Event)
    (h : resolvePathE cfg fs x = (.ok t, evs)) :
    ∀ ss tr, vsGuarded t false ss (evs ++ tr) = vsGuarded t true ss tr := by
  unfold resolvePathE at h
  split at h
  · split at h
    · simp at h
    · rename_i p hv
      injection h with h1 h2
      injection h1 with h1
      subst h1
      subst h2
      intro ss tr
      simp [vsGuarded]
  · split at h
    · simp at h
    · rename_i p1 hv1
      split at h
      · injection h with h1 h2
        injection h1 with h1
        subst h1
        subst h2
        intro ss tr
        simp [vsGuarded]
      · split at h
        · simp at h
        · rename_i p2 hv2
          split at h
          · injection h with h1 h2
            injection h1 with h1
            subst h1
            subst h2
            intro ss tr
            simp [vsGuarded]
          · split at h
            · simp at h
            · rename_i p3 hv3
              split at h
              · injection h with h1 h2
                injection h1 with h1
                subst h1
                subst h2
                intro ss tr
                simp [vsGuarded]
              · simp at h

theorem readPage_guarded (cfg : Cfg) (fs : FS) (x t : String)
    (h : (resolvePathE cfg fs x).1 = .ok t) :
    vsGuarded t false false (readPage cfg fs x).2 = true := by
  rcases hre : resolvePathE cfg fs x with ⟨res, evs⟩
  rw [hre] at h
  cases res with
  | error e => simp at h
  | ok fp =>
    have hfp : fp = t := by simpa using h
    subst hfp
    have hevs := resolvePath_evs cfg fs x fp evs hre
    simp only [readPage, hre]
    cases hcs : checkSymlink fs fp with
    | error e =>
      show vsGuarded fp false false evs = true
      have h2 := hevs false []
      rw [List.append_nil] at h2
      rw [h2]
      rfl
    | ok u =>
      cases u
      cases hrf : readFileE fs fp with
      | error e =>
        show vsGuarded fp false false (evs ++ [.symlinkChecked fp]) = true
        rw [hevs]
        simp [vsGuarded]
      | ok content =>
        show vsGuarded fp false false
          (((evs ++ [.symlinkChecked fp]) ++ [.readEv fp])
            ++ (collectAllPages cfg fs).2) = true
        rw [List.append_assoc, List.append_assoc, hevs]
        simp [vsGuarded, vsGuarded_true_true]

theorem updatePage_guarded (cfg : Cfg) (fs : FS) (x c : String)
    (props : Option (List (String × String))) (t : String)
    (h : (resolvePathE cfg fs x).1 = .ok t) :
    vsGuarded t false false (updatePage cfg fs x c props).2.2 = true := by
  cases hvc : validateContentSize c with
  | error e => simp only [updatePage, hvc]; rfl
  | ok u =>
    cases u
    rcases hre : resolvePathE cfg fs x with ⟨res, evs⟩
    rw [hre] at h
    cases res with
    | error e => simp at h
    | ok fp =>
      have hfp : fp = t := by simpa using h
      subst hfp
      have hevs := resolvePath_evs cfg fs x fp evs hre
      have hevs0 : ∀ ss, vsGuarded fp false ss evs = vsGuarded fp true ss [] := by
        intro ss
        have h2 := hevs ss []
        rwa [List.append_nil] at h2
      simp only [updatePage, hvc, hre]
      repeat' split
      all_goals simp [hevs, hevs0, vsGuarded, vsGuarded_true_true, List.append_assoc]

theorem appendToPage_guarded (cfg : Cfg) (fs : FS) (x c t : String)
    (h : (resolvePathE cfg fs x).1 = .ok t) :
    vsGuarded t false false (appendToPage cfg fs x c).2.2 = true := by
  cases hvc : validateContentSize c with
  | error e => simp only [appendToPage, hvc]; rfl
  | ok u =>
    cases u
    rcases hre : resolvePathE cfg fs x with ⟨res, evs⟩
    rw [hre] at h
    cases res with
    | error e => simp at h
    | ok fp =>
      have hfp : fp = t := by simpa using h
      subst hfp
      have hevs := resolvePath_evs cfg fs x fp evs hre
      have hevs0 : ∀ ss, vsGuarded fp false ss evs = vsGuarded fp true ss [] := by
        intro ss
        have h2 := hevs ss []
        rwa [List.append_nil] at h2
      simp only [appendToPage, hvc, hre]
      repeat' split
      all_goals simp [hevs, hevs0, vsGuarded, vsGuarded_true_true, List.append_assoc]

theorem deletePage_guarded (cfg : Cfg) (fs : FS) (x t : String)
    (h : (resolvePathE cfg fs x).1 = .ok t) :
    vsGuarded t false false (deletePage cfg fs x).2.2 = true := by
  rcases hre : resolvePathE cfg fs x with ⟨res, evs⟩
  rw [hre] at h
  cases res with
  | error e => simp at h
  | ok fp =>
    have hfp : fp = t := by simpa using h
    subst hfp
    have hevs := resolvePath_evs cfg fs x fp evs hre
    have hevs0 : ∀ ss, vsGuarded fp false ss evs = vsGuarded fp true ss [] := by
      intro ss
      have h2 := hevs ss []
      rwa [List.append_nil] at h2
    simp only [deletePage, hre]
    repeat' split
    all_goals simp [hevs, hevs0, vsGuarded, vsGuarded_true_true, List.append_assoc]

theorem createPage_guarded (cfg : Cfg) (fs : FS) (name content : String)
    (props : Option (List (String × String)))
    (hv : validatePath cfg (jsJoin cfg.pagesPath (name ++ ".md"))
        = .ok (jsJoin cfg.pagesPath (name ++ ".md"))) :
    vsGuarded (jsJoin cfg.pagesPath (name ++ ".md")) false false
      (createPage cfg fs name content props).2.2 = true := by
  cases hn : validatePageName name with
  | error e => simp only [createPage, hn]; rfl
  | ok u =>
    cases u
    simp only [createPage, hn, hv]
    repeat' split
    all_goals simp [vsGuarded, vsGuarded_true_true, List.append_assoc]

theorem getJournalPage_guarded (cfg : Cfg) (fs : FS) (today : String)
    (date : Option String) (t : String)
    (h : (resolvePathE cfg fs
        (jsJoin "journals" (dashToUnderscore (date.getD today) ++ ".md"))).1
        = .ok t) :
    vsGuarded t false false (getJournalPage cfg fs today date).2 = true := by
  rcases hr : readPage cfg fs
      (jsJoin "journals" (dashToUnderscore (date.getD today) ++ ".md"))
    with ⟨res, evs2⟩
  have hg : vsGuarded t false false evs2 = true := by
    have h0 := readPage_guarded cfg fs
      (jsJoin "journals" (dashToUnderscore (date.getD today) ++ ".md")) t h
    rwa [hr] at h0
  have hmono : ∀ sv, vsGuarded t sv false evs2 = true := fun sv =>
    vsGuarded_mono t evs2 false false sv false (by simp) (by simp) hg
  simp only [getJournalPage, hr]
  split
  · rfl
  · split
    · rfl
    · split
      · cases res with
        | ok pg => simp [vsGuarded, hmono]
        | error e => simp [vsGuarded, hmono]
      · simp [vsGuarded]

theorem createJournalPageBody_guarded (cfg : Cfg) (fs : FS)
    (targetDate : String) (tmpl : Option String)
    (hv : validatePath cfg
        (jsJoin cfg.journalsPath (dashToUnderscore targetDate ++ ".md"))
        = .ok (jsJoin cfg.journalsPath (dashToUnderscore targetDate ++ ".md"))) :
    vsGuarded (jsJoin cfg.journalsPath (dashToUnderscore targetDate ++ ".md"))
      false false
      (createJournalPage.createJournalPageBody cfg fs targetDate tmpl).2.2
      = true := by
  simp only [createJournalPage.createJournalPageBody, hv]
  repeat' split
  all_goals simp [vsGuarded, vsGuarded_true_true, List.append_assoc]

theorem createJournalPage_guarded (cfg : Cfg) (fs : FS) (today : String)
    (date : Option String) (tmpl : Option String)
    (hv : validatePath cfg
        (jsJoin cfg.journalsPath (dashToUnderscore (date.getD today) ++ ".md"))
        = .ok (jsJoin cfg.journalsPath
            (dashToUnderscore (date.getD today) ++ ".md"))) :
    vsGuarded (jsJoin cfg.journalsPath (dashToUnderscore (date.getD today) ++ ".md"))
      false false (createJournalPage cfg fs today date tmpl).2.2 = true := by
  simp only [createJournalPage]
  split
  · rfl
  · split
    · split
      · rfl
      · exact createJournalPageBody_guarded cfg fs (date.getD today) _ hv
    · exact createJournalPageBody_guarded cfg fs (date.getD today) none hv

theorem appendToJournalPageBody_guarded (cfg : Cfg) (fs : FS)
    (targetDate : String) (content : Option String)
    (hv : validatePath cfg
        (jsJoin cfg.journalsPath (dashToUnderscore targetDate ++ ".md"))
        = .ok (jsJoin cfg.journalsPath (dashToUnderscore targetDate ++ ".md"))) :
    vsGuarded (jsJoin cfg.journalsPath (dashToUnderscore targetDate ++ ".md"))
      false false
      (appendToJournalPage.appendToJournalPageBody cfg fs targetDate content).2.2
      = true := by
  simp only [appendToJournalPage.appendToJournalPageBody, hv]
  repeat' split
  all_goals simp [vsGuarded, vsGuarded_true_true, List.append_assoc]

theorem appendToJournalPage_guarded (cfg : Cfg) (fs : FS) (today : String)
    (date content : Option String)
    (hv : validatePath cfg
        (jsJoin cfg.journalsPath (dashToUnderscore (date.getD today) ++ ".md"))
        = .ok (jsJoin cfg.journalsPath
            (dashToUnderscore (date.getD today) ++ ".md"))) :
    vsGuarded (jsJoin cfg.journalsPath (dashToUnderscore (date.getD today) ++ ".md"))
      false false (appendToJournalPage cfg fs today date content).2.2 = true := by
  simp only [appendToJournalPage]
  split
  · rfl
  · split
    · split
      · rfl
      · exact appendToJournalPageBody_guarded cfg fs (date.getD today) _ hv
    · exact appendToJournalPageBody_guarded cfg fs (date.getD today) none hv

theorem searchLoop_guarded (cfg : Cfg) (fs : FS) (queryLower : String)
    (tags : Option (List String)) (pages : List PageMetadata) :
    ∀ checked, regGuarded checked (searchLoop cfg fs queryLower tags pages).2
      = true := by
  induction pages with
  | nil => intro checked; rfl
  | cons page rest ih =>
    intro checked
    rcases hsl : searchLoop cfg fs queryLower tags rest with ⟨res2, tr2⟩
    have ih2 : ∀ ck, regGuarded ck tr2 = true := by
      intro ck
      have h0 := ih ck
      rwa [hsl] at h0
    simp only [searchLoop, hsl]
    repeat' split
    all_goals simp [regGuarded, ih2]

theorem collectFolder_reads (fs : FS) (dirPath rel : String) (isJ : Bool)
    (files : List String) (p : String)
    (h : Event.readEv p ∈ (collectFolder fs dirPath rel isJ files).2) :
    ∃ c nl, lstatE fs p = some (.file c nl) := by
  induction files with
  | nil => simp [collectFolder] at h
  | cons file rest ih =>
    simp only [collectFolder] at h
    by_cases hmd : isMdFile file = true
    · rw [if_pos hmd] at h
      cases hls : lstatE fs (jsJoin dirPath file) with
      | none => rw [hls] at h; exact ih h
      | some entry =>
        cases entry with
        | symlink te => rw [hls] at h; exact ih h
        | dir => rw [hls] at h; simp at h
        | file content nl =>
          rw [hls] at h
          rcases List.mem_cons.mp h with heq | hmem
          · have hp : p = jsJoin dirPath file := by
              injection heq with h1
            subst hp
            exact ⟨content, nl, hls⟩
          · exact ih hmem
    · rw [if_neg hmd] at h
      exact ih h

theorem collectAllPages_reads (cfg : Cfg) (fs : FS) (p : String)
    (h : Event.readEv p ∈ (collectAllPages cfg fs).2) :
    ∃ c nl, lstatE fs p = some (.file c nl) := by
  simp only [collectAllPages] at h
  rcases List.mem_append.mp h with h1 | h1
  · revert h1
    cases hrd : readdirE fs cfg.pagesPath with
    | error e => intro h1; simp at h1
    | ok files => intro h1; exact collectFolder_reads fs cfg.pagesPath "pages" false files p h1
  · revert h1
    cases hrd : readdirE fs cfg.journalsPath with
    | error e => intro h1; simp at h1
    | ok files => intro h1; exact collectFolder_reads fs cfg.journalsPath "journals" true files p h1

/-- **C5 counterexample**: `readPage` performs its content read without ever
running the regular-file single-hard-link check — its trace contains the
read event and no `regularFileChecked` event at all; moreover a file with
hard-link count 2 is read successfully by `readPage` while `searchPages`
silently skips it, so the three checks are *not* all mandatory before every
content read. -/
theorem C5_counterexample :
    (Event.readEv "/g/pages/B.md"
        ∈ (readPage ⟨"/g", "/cwd"⟩
            [("/g", .dir), ("/g/pages", .dir), ("/g/pages/B.md", .file "b" 2)]
            "B").2)
    ∧ ((readPage ⟨"/g", "/cwd"⟩
          [("/g", .dir), ("/g/pages", .dir), ("/g/pages/B.md", .file "b" 2)]
          "B").2.all (fun ev => match ev with
            | .regularFileChecked _ => false
            | _ => true) = true)
    ∧ ((readPage ⟨"/g", "/cwd"⟩
          [("/g", .dir), ("/g/pages", .dir), ("/g/pages/B.md", .file "b" 2)]
          "B").1.toOption.isSome = true)
    ∧ (searchPages ⟨"/g", "/cwd"⟩
        [("/g", .dir), ("/g/pages", .dir), ("/g/pages/B.md", .file "b" 2)]
        "b" none none).1 = .ok [] := by
  refine ⟨by decide, by decide, by decide, by decide⟩

/-- **C5 (amended)**: the safety checks that actually precede each
filesystem access.  For `readPage`, `updatePage`, `appendToPage` and
`deletePage`, every read, write or unlink of the resolved target path in the
operation's trace is preceded by a successful path-inside-root validation
and a successful symlink check of that same path.  The same holds for
`createPage` and the journal operations whenever the joined candidate path
is its own canonical form (which `validatePath` certifies), and for
`getJournalPage` via the guarantee of the inner `readPage`.  The search
loop of `searchPages` precedes every content read with the regular-file
single-hard-link check of that path, and index building
(`collectAllPages`) only ever reads paths whose directory entry is a
regular file (symlinks are skipped), without the other two checks. -/
theorem C5_checks_amended :
    (∀ cfg fs x t, (resolvePathE cfg fs x).1 = .ok t →
        vsGuarded t false false (readPage cfg fs x).2 = true)
    ∧ (∀ cfg fs x c props t, (resolvePathE cfg fs x).1 = .ok t →
        vsGuarded t false false (updatePage cfg fs x c props).2.2 = true)
    ∧ (∀ cfg fs x c t, (resolvePathE cfg fs x).1 = .ok t →
        vsGuarded t false false (appendToPage cfg fs x c).2.2 = true)
    ∧ (∀ cfg fs x t, (resolvePathE cfg fs x).1 = .ok t →
        vsGuarded t false false (deletePage cfg fs x).2.2 = true)
    ∧ (∀ cfg fs name content props,
        validatePath cfg (jsJoin cfg.pagesPath (name ++ ".md"))
          = .ok (jsJoin cfg.pagesPath (name ++ ".md")) →
        vsGuarded (jsJoin cfg.pagesPath (name ++ ".md")) false false
          (createPage cfg fs name content props).2.2 = true)
    ∧ (∀ cfg fs today date t,
        (resolvePathE cfg fs
            (jsJoin "journals"
              (dashToUnderscore (Option.getD date today) ++ ".md"))).1 = .ok t →
        vsGuarded t false false (getJournalPage cfg fs today date).2 = true)
    ∧ (∀ cfg fs today date tmpl,
        validatePath cfg (jsJoin cfg.journalsPath
            (dashToUnderscore (Option.getD date today) ++ ".md"))
          = .ok (jsJoin cfg.journalsPath
              (dashToUnderscore (Option.getD date today) ++ ".md")) →
        vsGuarded (jsJoin cfg.journalsPath
            (dashToUnderscore (Option.getD date today) ++ ".md")) false false
          (createJournalPage cfg fs today date tmpl).2.2 = true)
    ∧ (∀ cfg fs today date content,
        validatePath cfg (jsJoin cfg.journalsPath
            (dashToUnderscore (Option.getD date today) ++ ".md"))
          = .ok (jsJoin cfg.journalsPath
              (dashToUnderscore (Option.getD date today) ++ ".md")) →
        vsGuarded (jsJoin cfg.journalsPath
            (dashToUnderscore (Option.getD date today) ++ ".md")) false false
          (appendToJournalPage cfg fs today date content).2.2 = true)
    ∧ (∀ cfg fs queryLower tags pages checked,
        regGuarded checked (searchLoop cfg fs queryLower tags pages).2 = true)
    ∧ (∀ cfg fs p, Event.readEv p ∈ (collectAllPages cfg fs).2 →
        ∃ c nl, lstatE fs p = some (.file c nl)) :=
  ⟨readPage_guarded,
   fun cfg fs x c props t h => updatePage_guarded cfg fs x c props t h,
   fun cfg fs x c t h => appendToPage_guarded cfg fs x c t h,
   deletePage_guarded,
   fun cfg fs name content props hv =>
     createPage_guarded cfg fs name content props hv,
   fun cfg fs today date t h => getJournalPage_guarded cfg fs today date t h,
   fun cfg fs today date tmpl hv =>
     createJournalPage_guarded cfg fs today date tmpl hv,
   fun cfg fs today date content hv =>
     appendToJournalPage_guarded cfg fs today date content hv,
   fun cfg fs queryLower tags pages checked =>
     searchLoop_guarded cfg fs queryLower tags pages checked,
   fun cfg fs p h => collectAllPages_reads cfg fs p h⟩

theorem C5_checks_amended_witness :
    vsGuarded "/g/pages/A.md" false false
      (readPage ⟨"/g", "/cwd"⟩
        [("/g", .dir), ("/g/pages", .dir), ("/g/pages/A.md", .file "hi" 1)]
        "A").2 = true :=
  C5_checks_amended.1 ⟨"/g", "/cwd"⟩
    [("/g", .dir), ("/g/pages", .dir), ("/g/pages/A.md", .file "hi" 1)]
    "A" "/g/pages/A.md" (by decide)

/-- Witness for C1: a concrete accepted path under root `/graph` and a
concrete symlink entry. -/
theorem C1_path_resolution_safety_witness :
    validatePath ⟨"/graph", "/cwd"⟩ "/graph/pages/A.md" = .ok "/graph/pages/A.md"
    ∧ lstatE [("/graph/pages/evil.md", Entry.symlink true)] "/graph/pages/evil.md"
        = some (Entry.symlink true)
    ∧ ((jsStartsWith "/graph/pages/A.md"
          (nodeResolve "/cwd" "/graph" ++ "/") = true
        ∨ "/graph/pages/A.md" = nodeResolve "/cwd" "/graph")
      ∧ "/graph/pages/A.md" = nodeResolve "/cwd" "/graph/pages/A.md"
      ∧ (∃ cs, (∀ c ∈ cs, goodComp c ∧ '/' ∉ c)
          ∧ ("/graph/pages/A.md" : String).data = renderComps cs)
      ∧ checkSymlink [("/graph/pages/evil.md", Entry.symlink true)]
          "/graph/pages/evil.md" = .error .linkAttack) :=
  ⟨by decide, by decide,
    C1_path_resolution_safety ⟨"/graph", "/cwd"⟩ "/graph/pages/A.md"
      "/graph/pages/A.md" [("/graph/pages/evil.md", Entry.symlink true)]
      "/graph/pages/evil.md" true (by decide) (by decide)⟩

end LogseqMCP
